import Mathlib

/-!
Verification of the hypergraph growth engine.

This file embeds, in Lean, the core of a Rust program that generates random
hypergraphs by preferential attachment with vertex deactivation:

* a Fenwick tree (src/core/fenwick.rs) used as a weighted sampling index,
* the hypergraph data structure (src/core/hypergraph.rs),
* the model parameter validation (src/core/model.rs),
* the simulation loop (src/core/simulation.rs).

Rust while-loops are embedded as structurally recursive functions over an
explicit fuel argument that is always at least the number of iterations the
Rust loop performs, so the embedded functions compute by kernel reduction.
Machine integers are embedded as Nat / Int (the claims under study are about
the logical structure of the algorithms, not about overflow), and f64 values
that only participate in exact comparisons and in ratios are embedded as
rationals.  Randomness is embedded as an explicit oracle stream: one rational
p in [0,1) per step for the event choice, and one rational u = a/b in [0,1)
(given as a pair of naturals a < b so that the draw computes inside the
kernel) per uniform integer draw, the drawn integer in [1, total] being
1 + floor(u * total) = 1 + a·total/b, which is exactly the range contract of
gen_range(1..=total).
-/

/-! ## Binary arithmetic groundwork

The Fenwick tree walks index paths generated by the two maps
j ↦ j &&& (j-1) (clear the lowest set bit) and i ↦ i ||| (i+1)
(set the lowest clear bit).  We characterise both maps arithmetically.
-/

theorem and_bit (x y : Bool) (a b : Nat) :
    (2*a + x.toNat) &&& (2*b + y.toNat) = 2*(a &&& b) + (x && y).toNat := by
  have h : Nat.bit x a &&& Nat.bit y b = Nat.bit (x && y) (a &&& b) := by
    show Nat.bitwise _ _ _ = _
    rw [Nat.bitwise_bit]
    rfl
  simpa [Nat.bit_val] using h

theorem or_bit (x y : Bool) (a b : Nat) :
    (2*a + x.toNat) ||| (2*b + y.toNat) = 2*(a ||| b) + (x || y).toNat := by
  have h : Nat.bit x a ||| Nat.bit y b = Nat.bit (x || y) (a ||| b) := by
    show Nat.bitwise _ _ _ = _
    rw [Nat.bitwise_bit]
    rfl
  simpa [Nat.bit_val] using h

/-- Structure of i ||| (i+1): every i is 2^(z+1)·B + (2^z - 1) for the
position z of its lowest clear bit, and setting that bit gives
2^(z+1)·B + (2^(z+1) - 1). -/
theorem or_succ_decomp (i : Nat) :
    ∃ z B, i = 2^(z+1) * B + (2^z - 1) ∧ i ||| (i+1) = 2^(z+1) * B + (2^(z+1) - 1) := by
  induction i using Nat.strong_induction_on with
  | _ i ih =>
    rcases Nat.even_or_odd i with ⟨c, hc⟩ | ⟨c, hc⟩
    · refine ⟨0, c, by omega, ?_⟩
      have h : (2*c) ||| (2*c+1) = 2*c+1 := by
        simpa using or_bit false true c c
      rw [show i + 1 = 2*c+1 by omega, show i = 2*c by omega, h]
      have e : (2:Nat)^(0+1) = 2 := by norm_num
      rw [e]
    · have hc' : c < i := by omega
      obtain ⟨z, B, h1, h2⟩ := ih c hc'
      have hp : (0:Nat) < 2^z := Nat.pos_pow_of_pos z (by norm_num)
      have q1 : (2:Nat)^(z+1) * B = 2*(2^z*B) := by ring
      have q2 : (2:Nat)^(z+1) = 2*2^z := by ring
      have q3 : (2:Nat)^(z+1+1) * B = 4*(2^z*B) := by ring
      have q4 : (2:Nat)^(z+1+1) = 4*2^z := by ring
      rw [q1] at h1
      rw [q1, q2] at h2
      have h3 : i ||| (i+1) = 2 * (c ||| (c+1)) + 1 := by
        rw [show i + 1 = 2*(c+1) by omega, show i = 2*c+1 by omega]
        simpa using or_bit true false c (c+1)
      refine ⟨z+1, B, by rw [q3, q2]; omega, ?_⟩
      rw [h3, h2, q3, q4]
      omega

/-- Structure of j &&& (j-1) for positive j: j is 2^(z+1)·C + 2^z for the
position z of its lowest set bit, and clearing that bit gives 2^(z+1)·C. -/
theorem and_pred_decomp (j : Nat) (hj : 0 < j) :
    ∃ z C, j = 2^(z+1) * C + 2^z ∧ j &&& (j-1) = 2^(z+1) * C := by
  induction j using Nat.strong_induction_on with
  | _ j ih =>
    rcases Nat.even_or_odd j with ⟨c, hc⟩ | ⟨c, hc⟩
    · have hc0 : 0 < c := by omega
      obtain ⟨z, C, h1, h2⟩ := ih c (by omega) hc0
      have hp : (0:Nat) < 2^z := Nat.pos_pow_of_pos z (by norm_num)
      have q1 : (2:Nat)^(z+1) * C = 2*(2^z*C) := by ring
      have q2 : (2:Nat)^(z+1) = 2*2^z := by ring
      have q3 : (2:Nat)^(z+1+1) * C = 4*(2^z*C) := by ring
      rw [q1] at h2
      rw [q1] at h1
      have h3 : j &&& (j-1) = 2 * (c &&& (c-1)) := by
        rw [show j - 1 = 2*(c-1)+1 by omega, show j = 2*c by omega]
        simpa using and_bit false true c (c-1)
      refine ⟨z+1, C, by rw [q3, q2]; omega, ?_⟩
      rw [h3, h2, q3]
      omega
    · refine ⟨0, c, by omega, ?_⟩
      have h : (2*c+1) &&& (2*c) = 2*c := by
        simpa using and_bit true false c c
      rw [show j - 1 = 2*c by omega, show j = 2*c+1 by omega, h]
      have e : (2:Nat)^(0+1) = 2 := by norm_num
      rw [e]

/-- Structure of k &&& (k+1): every k is 2^(r+1)·D + (2^r - 1) where r is the
length of its trailing block of set bits, and clearing that block gives
2^(r+1)·D. -/
theorem and_succ_decomp (k : Nat) :
    ∃ r D, k = 2^(r+1) * D + (2^r - 1) ∧ k &&& (k+1) = 2^(r+1) * D := by
  induction k using Nat.strong_induction_on with
  | _ k ih =>
    rcases Nat.even_or_odd k with ⟨c, hc⟩ | ⟨c, hc⟩
    · refine ⟨0, c, by omega, ?_⟩
      have h : (2*c) &&& (2*c+1) = 2*c := by
        simpa using and_bit false true c c
      rw [show k + 1 = 2*c+1 by omega, show k = 2*c by omega, h]
      have e : (2:Nat)^(0+1) = 2 := by norm_num
      rw [e]
    · obtain ⟨r, D, h1, h2⟩ := ih c (by omega)
      have hp : (0:Nat) < 2^r := Nat.pos_pow_of_pos r (by norm_num)
      have q1 : (2:Nat)^(r+1) * D = 2*(2^r*D) := by ring
      have q2 : (2:Nat)^(r+1) = 2*2^r := by ring
      have q3 : (2:Nat)^(r+1+1) * D = 4*(2^r*D) := by ring
      rw [q1] at h2
      rw [q1] at h1
      have h3 : k &&& (k+1) = 2 * (c &&& (c+1)) := by
        rw [show k + 1 = 2*(c+1) by omega, show k = 2*c+1 by omega]
        simpa using and_bit true false c (c+1)
      refine ⟨r+1, D, by rw [q3, q2]; omega, ?_⟩
      rw [h3, h2, q3]
      omega

theorem and_pred_lt (j : Nat) (hj : 0 < j) : j &&& (j-1) < j := by
  have h := Nat.and_le_right (n := j) (m := j - 1)
  omega

theorem or_succ_ge (i : Nat) : i + 1 ≤ i ||| (i+1) := by
  obtain ⟨z, B, h1, h2⟩ := or_succ_decomp i
  have hp : (0:Nat) < 2^z := Nat.pos_pow_of_pos z (by norm_num)
  have e1 : (2:Nat)^(z+1) = 2 * 2^z := by ring
  omega

/-- Membership of i in the responsibility interval of cell k is preserved,
step by step, along the update path i, i ||| (i+1), ...; this is the
characterisation that makes point updates correct. -/
theorem upd_mem_iff (i k : Nat) :
    (k &&& (k+1) ≤ i ∧ i ≤ k) ↔
      (i = k ∨ (k &&& (k+1) ≤ i ||| (i+1) ∧ i ||| (i+1) ≤ k)) := by
  obtain ⟨r, D, hk, hkA⟩ := and_succ_decomp k
  obtain ⟨z, B, hi, hiU⟩ := or_succ_decomp i
  have hpr : (0:Nat) < 2^r := Nat.pos_pow_of_pos r (by norm_num)
  have hpz : (0:Nat) < 2^z := Nat.pos_pow_of_pos z (by norm_num)
  have q2z : (2:Nat)^(z+1) = 2*2^z := by ring
  have q2r : (2:Nat)^(r+1) = 2*2^r := by ring
  have hU : i ||| (i+1) = i + 2^z := by omega
  constructor
  · rintro ⟨hA, hik⟩
    by_cases hik' : i = k
    · exact Or.inl hik'
    right
    have hik2 : i < k := lt_of_le_of_ne hik hik'
    have hzr : z < r := by
      by_contra hzr
      push_neg at hzr
      have esplit : (2:Nat)^(z+1) = 2^r * 2^(z-r+1) := by
        rw [← pow_add]
        congr 1
        omega
      have esplit2 : (2:Nat)^z = 2^r * 2^(z-r) := by
        rw [← pow_add]
        congr 1
        omega
      have hQ : (0:Nat) < 2^(z-r) := Nat.pos_pow_of_pos _ (by norm_num)
      have hi1 : i + 1 = 2^r * (2^(z-r+1)*B + 2^(z-r)) := by
        rw [Nat.mul_add, ← Nat.mul_assoc, ← esplit, ← esplit2]
        omega
      have eA : (2:Nat)^(r+1)*D = 2^r*(2*D) := by ring
      have hA' : 2^r*(2*D) ≤ i := by rw [← eA, ← hkA]; exact hA
      have hlt : 2^r*(2*D) < 2^r * (2^(z-r+1)*B + 2^(z-r)) := by omega
      have hDM : 2*D < 2^(z-r+1)*B + 2^(z-r) := Nat.lt_of_mul_lt_mul_left hlt
      have hle : 2^r*(2*D+1) ≤ 2^r * (2^(z-r+1)*B + 2^(z-r)) :=
        Nat.mul_le_mul_left _ (by omega)
      have eexp : (2:Nat)^r*(2*D+1) = 2^r*(2*D) + 2^r := by ring
      have hkval : k = 2^r*(2*D) + (2^r - 1) := by rw [← eA]; omega
      omega
    have hzr1 : z + 1 ≤ r := hzr
    have esplitA : (2:Nat)^(r+1) = 2^(z+1) * 2^(r-z) := by
      rw [← pow_add]
      congr 1
      omega
    have hQ : (0:Nat) < 2^(r-z) := Nat.pos_pow_of_pos _ (by norm_num)
    have hA2 : k &&& (k+1) = 2^(z+1) * (2^(r-z)*D) := by
      rw [hkA, esplitA, Nat.mul_assoc]
    have hBA2 : 2^(r-z)*D ≤ B := by
      by_contra hBA
      push_neg at hBA
      have h1 : B + 1 ≤ 2^(r-z)*D := hBA
      have h2 : 2^(z+1)*(B+1) ≤ 2^(z+1)*(2^(r-z)*D) :=
        Nat.mul_le_mul_left _ h1
      have e1 : (2:Nat)^(z+1)*(B+1) = 2^(z+1)*B + 2^(z+1) := by ring
      rw [hA2] at hA
      omega
    have hqd : ∃ q, B = 2^(r-z)*D + q := ⟨B - 2^(r-z)*D, by omega⟩
    obtain ⟨q, hq⟩ := hqd
    have hiq : i = 2^(z+1)*(2^(r-z)*D) + 2^(z+1)*q + (2^z - 1) := by
      have e3 : (2:Nat)^(z+1)*(2^(r-z)*D + q) = 2^(z+1)*(2^(r-z)*D) + 2^(z+1)*q := by
        ring
      rw [hi, hq, e3]
    have hqlt : 2^(z+1)*q < 2^r := by
      rw [hA2] at hA
      have hkval : k = 2^(z+1)*(2^(r-z)*D) + (2^r - 1) := by
        rw [hk, esplitA, Nat.mul_assoc]
      omega
    have esplitR : (2:Nat)^r = 2^(z+1) * 2^(r-z-1) := by
      rw [← pow_add]
      congr 1
      omega
    have hqlt2 : q < 2^(r-z-1) := by
      rw [esplitR] at hqlt
      by_contra hc
      push_neg at hc
      have : 2^(z+1)*2^(r-z-1) ≤ 2^(z+1)*q := Nat.mul_le_mul_left _ hc
      omega
    have hble : 2^(z+1)*(q+1) ≤ 2^(z+1)*2^(r-z-1) :=
      Nat.mul_le_mul_left _ (by omega)
    have e2 : (2:Nat)^(z+1)*(q+1) = 2^(z+1)*q + 2^(z+1) := by ring
    have hkval : k = 2^(z+1)*(2^(r-z)*D) + (2^r - 1) := by
      rw [hk, esplitA, Nat.mul_assoc]
    rw [hA2, hU]
    omega
  · rintro (rfl | ⟨hAU, hUk⟩)
    · refine ⟨?_, le_refl _⟩
      rw [hkA]
      have eA : (2:Nat)^(r+1)*D = 2^r*(2*D) := by ring
      omega
    · have hik : i ≤ k := by omega
      refine ⟨?_, hik⟩
      by_contra hiA
      push_neg at hiA
      by_cases hzr : r ≤ z
      · have esplit : (2:Nat)^(z+1) = 2^(r+1) * 2^(z-r) := by
          rw [← pow_add]
          congr 1
          omega
        have hQ : (0:Nat) < 2^(z-r) := Nat.pos_pow_of_pos _ (by norm_num)
        have hU1 : (i ||| (i+1)) + 1 = 2^(r+1) * (2^(z-r)*(B+1)) := by
          rw [hiU, esplit]
          have e1 : ((2:Nat)^(r+1)*2^(z-r))*B + 2^(r+1)*2^(z-r) =
              2^(r+1)*(2^(z-r)*(B+1)) := by ring
          have hp1 : (0:Nat) < 2^(r+1)*2^(z-r) := by positivity
          omega
        have hDN : D < 2^(z-r)*(B+1) := by
          have h1 : 2^(r+1)*D < 2^(r+1)*(2^(z-r)*(B+1)) := by
            rw [← hU1]
            rw [hkA] at hAU
            omega
          exact Nat.lt_of_mul_lt_mul_left h1
        have hle : 2^(r+1)*(D+1) ≤ 2^(r+1)*(2^(z-r)*(B+1)) :=
          Nat.mul_le_mul_left _ (by omega)
        have e1 : (2:Nat)^(r+1)*(D+1) = 2^(r+1)*D + 2^(r+1) := by ring
        have hkval : k = 2^(r+1)*D + (2^r - 1) := hk
        omega
      · push_neg at hzr
        have esplitA : (2:Nat)^(r+1) = 2^(z+1) * 2^(r-z) := by
          rw [← pow_add]
          congr 1
          omega
        have hQ : (0:Nat) < 2^(r-z) := Nat.pos_pow_of_pos _ (by norm_num)
        have hA2 : k &&& (k+1) = 2^(z+1) * (2^(r-z)*D) := by
          rw [hkA, esplitA, Nat.mul_assoc]
        have hBA : B + 1 ≤ 2^(r-z)*D := by
          by_contra hc
          push_neg at hc
          have h1 : 2^(r-z)*D ≤ B := by omega
          have h2 : 2^(z+1)*(2^(r-z)*D) ≤ 2^(z+1)*B :=
            Nat.mul_le_mul_left _ h1
          rw [hA2] at hiA
          omega
        have h2 : 2^(z+1)*(B+1) ≤ 2^(z+1)*(2^(r-z)*D) :=
          Nat.mul_le_mul_left _ hBA
        have e1 : (2:Nat)^(z+1)*(B+1) = 2^(z+1)*B + 2^(z+1) := by ring
        rw [hA2] at hAU
        omega

/-! ## The Fenwick tree (src/core/fenwick.rs)

The Rust struct holds a vector of cells and a running total.  Loops are
embedded with an explicit fuel that dominates the iteration count, so every
operation is a plain structural recursion.
-/

structure Fenwick where
  items : List Int
  total : Int
deriving DecidableEq

/-- Fenwick::of_size: an empty tree of the given size. -/
def Fenwick.of_size (size : Nat) : Fenwick :=
  { items := List.replicate size 0, total := 0 }

/-- First loop of Fenwick::sum: while j > i, accumulate items[j-1] and clear
the lowest set bit of j.  Fuel at least j suffices since j strictly
decreases. -/
def sumAcc (items : List Int) (i : Nat) : Nat → Nat → Int
  | 0, _ => 0
  | fuel+1, j =>
    if i < j then items.getD (j-1) 0 + sumAcc items i fuel (j &&& (j-1)) else 0

/-- The final value of j after the first loop of Fenwick::sum. -/
def sumEnd (i : Nat) : Nat → Nat → Nat
  | 0, j => j
  | fuel+1, j => if i < j then sumEnd i fuel (j &&& (j-1)) else j

/-- Fenwick::sum: partial sum over [i, j).  The first loop descends from j
to the meeting point adding cells, the second descends from i to the same
point subtracting cells. -/
def Fenwick.sum (f : Fenwick) (i j : Nat) : Int :=
  sumAcc f.items i j j - sumAcc f.items (sumEnd i j j) i i

/-- Fenwick::get: the value at index i. -/
def Fenwick.get (f : Fenwick) (i : Nat) : Int := f.sum i (i+1)

/-- Loop of Fenwick::add: while i < n, add x to items[i] and set the lowest
clear bit of i.  Fuel at least the list length suffices since i strictly
increases. -/
def addAcc (x : Int) : Nat → List Int → Nat → List Int
  | 0, items, _ => items
  | fuel+1, items, i =>
    if i < items.length then
      addAcc x fuel (items.set i (items.getD i 0 + x)) (i ||| (i+1))
    else items

/-- Fenwick::add: add x at index i.  Note that the Rust code increments the
running total unconditionally, even when i is outside the array and the loop
body never runs. -/
def Fenwick.add (f : Fenwick) (i : Nat) (x : Int) : Fenwick :=
  { items := addAcc x f.items.length f.items i, total := f.total + x }

/-- Fenwick::set: overwrite the value at index i via a delta add. -/
def Fenwick.set (f : Fenwick) (i : Nat) (x : Int) : Fenwick :=
  f.add i (x - f.get i)

/-- Binary-search loop of Fenwick::sample_one.  Fuel at least j - i
suffices since the bracket [i, j] shrinks every iteration. -/
def sampleAcc (f : Fenwick) (x : Int) : Nat → Int → Nat → Nat → Nat
  | 0, _, _, j => j
  | fuel+1, a, i, j =>
    if i < j then
      let m := (i + j) / 2
      let s := f.sum i (m+1)
      if a + s < x then sampleAcc f x fuel (a + s) (m+1) j
      else sampleAcc f x fuel a i m
    else j

/-- Fenwick::sample_one with the drawn value x made explicit: the smallest
index whose inclusive prefix sum reaches x, found by binary search over
[0, n-1]. -/
def Fenwick.sample_one (f : Fenwick) (x : Int) : Nat :=
  sampleAcc f x (f.items.length - 1) 0 0 (f.items.length - 1)

/-- Fenwick::sample_one including the draw itself: gen_range(1..=total)
panics when the range is empty (total < 1), which we embed as none;
otherwise the oracle supplies the uniform value of this draw as a rational
u = u.1 / u.2 in [0,1) given by a pair of naturals with u.1 < u.2, and the
drawn integer 1 + floor(u · total) = 1 + u.1·total/u.2 lies in [1, total],
which is exactly the range contract of gen_range(1..=total). -/
def Fenwick.sample_draw (f : Fenwick) (u : Nat × Nat) : Option Nat :=
  if f.total < 1 then none
  else some (f.sample_one (1 + ((u.1 * f.total.toNat / u.2 : Nat) : Int)))

/-- Loop of Fenwick::sample_many: m successive draws, consuming the oracle
stream us at positions k, k+1, ... -/
def sampleManyAcc (f : Fenwick) (us : Nat → Nat × Nat) : Nat → Nat → Option (List Nat)
  | 0, _ => some []
  | m+1, k =>
    match f.sample_draw (us k) with
    | none => none
    | some v =>
      match sampleManyAcc f us m (k+1) with
      | none => none
      | some l => some (v :: l)

/-- Fenwick::sample_many: m weighted draws with replacement. -/
def Fenwick.sample_many (f : Fenwick) (m : Nat) (us : Nat → Nat × Nat) : Option (List Nat) :=
  sampleManyAcc f us m 0

/-! ## Abstract weights and the representation invariant -/

/-- Brute-force prefix sum of an abstract weight function:
SW w n = w 0 + ... + w (n-1). -/
def SW (w : Nat → Int) : Nat → Int
  | 0 => 0
  | n+1 => SW w n + w n

/-- The Fenwick representation invariant: cell k stores the sum of the
weights over its responsibility interval [k &&& (k+1), k]. -/
def Valid (items : List Int) (w : Nat → Int) : Prop :=
  ∀ k, k < items.length → items.getD k 0 = SW w (k+1) - SW w (k &&& (k+1))

/-- Point update of a weight function. -/
def updW (w : Nat → Int) (i : Nat) (x : Int) : Nat → Int :=
  fun k => if k = i then x else w k

theorem getD_set_eq (l : List Int) (i : Nat) (a d : Int) (h : i < l.length) :
    (l.set i a).getD i d = a := by
  simp [List.getD_eq_getElem?_getD, List.getElem?_set, h]

theorem getD_set_ne (l : List Int) (i k : Nat) (a d : Int) (h : k ≠ i) :
    (l.set i a).getD k d = l.getD k d := by
  simp only [List.getD_eq_getElem?_getD, List.getElem?_set]
  rw [if_neg (fun he => h he.symm)]

theorem getD_rep (n i : Nat) (d : Int) (h : i < n) :
    (List.replicate n (0:Int)).getD i d = 0 := by
  simp [List.getD_eq_getElem?_getD, List.getElem?_replicate, h]

/-! ## Fuel elimination: each loop only depends on its starting state -/

theorem sumAcc_congr (items : List Int) (i : Nat) :
    ∀ fuel fuel' j, j ≤ fuel → j ≤ fuel' →
      sumAcc items i fuel j = sumAcc items i fuel' j := by
  intro fuel
  induction fuel with
  | zero =>
    intro fuel' j hj hj'
    interval_cases j
    cases fuel' with
    | zero => rfl
    | succ n => simp [sumAcc]
  | succ fuel ih =>
    intro fuel' j hj hj'
    cases fuel' with
    | zero =>
      interval_cases j
      simp [sumAcc]
    | succ fuel' =>
      simp only [sumAcc]
      by_cases hij : i < j
      · rw [if_pos hij, if_pos hij]
        have hlt : j &&& (j-1) < j := and_pred_lt j (by omega)
        rw [ih fuel' (j &&& (j-1)) (by omega) (by omega)]
      · rw [if_neg hij, if_neg hij]

theorem sumAcc_unfold (items : List Int) (i j : Nat) :
    sumAcc items i j j =
      if i < j then items.getD (j-1) 0 + sumAcc items i (j &&& (j-1)) (j &&& (j-1))
      else 0 := by
  cases j with
  | zero => simp [sumAcc]
  | succ n =>
    simp only [sumAcc]
    by_cases hij : i < n+1
    · rw [if_pos hij, if_pos hij]
      have hlt : (n+1) &&& n < n+1 := by
        have := and_pred_lt (n+1) (by omega)
        simpa using this
      have : (n+1) - 1 = n := rfl
      rw [this]
      rw [sumAcc_congr items i n ((n+1) &&& n) ((n+1) &&& n) (by omega) (le_refl _)]
    · rw [if_neg hij, if_neg hij]

theorem sumEnd_congr (i : Nat) :
    ∀ fuel fuel' j, j ≤ fuel → j ≤ fuel' →
      sumEnd i fuel j = sumEnd i fuel' j := by
  intro fuel
  induction fuel with
  | zero =>
    intro fuel' j hj hj'
    interval_cases j
    cases fuel' with
    | zero => rfl
    | succ n => simp [sumEnd]
  | succ fuel ih =>
    intro fuel' j hj hj'
    cases fuel' with
    | zero =>
      interval_cases j
      simp [sumEnd]
    | succ fuel' =>
      simp only [sumEnd]
      by_cases hij : i < j
      · rw [if_pos hij, if_pos hij]
        have hlt : j &&& (j-1) < j := and_pred_lt j (by omega)
        rw [ih fuel' (j &&& (j-1)) (by omega) (by omega)]
      · rw [if_neg hij, if_neg hij]

theorem sumEnd_unfold (i j : Nat) :
    sumEnd i j j =
      if i < j then sumEnd i (j &&& (j-1)) (j &&& (j-1)) else j := by
  cases j with
  | zero => simp [sumEnd]
  | succ n =>
    simp only [sumEnd]
    by_cases hij : i < n+1
    · rw [if_pos hij, if_pos hij]
      have hlt : (n+1) &&& n < n+1 := by
        have := and_pred_lt (n+1) (by omega)
        simpa using this
      have e : n + 1 - 1 = n := rfl
      rw [e]
      rw [sumEnd_congr i n ((n+1) &&& n) ((n+1) &&& n) (by omega) (le_refl _)]
    · rw [if_neg hij, if_neg hij]

/-! ## Correctness of add -/

theorem addAcc_out (x : Int) (fuel : Nat) (items : List Int) (i : Nat)
    (h : items.length ≤ i) : addAcc x fuel items i = items := by
  cases fuel with
  | zero => rfl
  | succ n =>
    simp only [addAcc]
    rw [if_neg (by omega)]

theorem addAcc_spec (x : Int) :
    ∀ fuel (items : List Int) (i : Nat), items.length ≤ fuel + i →
      (addAcc x fuel items i).length = items.length ∧
      ∀ k, k < items.length →
        (addAcc x fuel items i).getD k 0 =
          items.getD k 0 + (if k &&& (k+1) ≤ i ∧ i ≤ k then x else 0) := by
  intro fuel
  induction fuel with
  | zero =>
    intro items i h
    refine ⟨rfl, fun k hk => ?_⟩
    show items.getD k 0 = items.getD k 0 + (if k &&& (k+1) ≤ i ∧ i ≤ k then x else 0)
    rw [if_neg (by omega)]
    omega
  | succ fuel ih =>
    intro items i h
    by_cases hi : i < items.length
    · simp only [addAcc]
      rw [if_pos hi]
      have hlen : (items.set i (items.getD i 0 + x)).length = items.length :=
        List.length_set items i _
      have hup := or_succ_ge i
      have hfuel : (items.set i (items.getD i 0 + x)).length ≤ fuel + (i ||| (i+1)) := by
        rw [hlen]
        omega
      obtain ⟨ihlen, ihget⟩ := ih (items.set i (items.getD i 0 + x)) (i ||| (i+1)) hfuel
      refine ⟨by rw [ihlen, hlen], fun k hk => ?_⟩
      rw [ihget k (by rw [hlen]; exact hk)]
      by_cases hki : k = i
      · subst hki
        rw [getD_set_eq items k _ 0 hk]
        rw [if_neg (by omega)]
        rw [if_pos ⟨Nat.and_le_left, le_refl k⟩]
        omega
      · rw [getD_set_ne items i k _ 0 hki]
        have hiff : (k &&& (k+1) ≤ i ∧ i ≤ k) ↔
            (k &&& (k+1) ≤ i ||| (i+1) ∧ i ||| (i+1) ≤ k) := by
          rw [upd_mem_iff i k]
          have hne : ¬ i = k := fun he => hki he.symm
          simp [hne]
        rw [if_congr hiff.symm rfl rfl]
    · simp only [addAcc]
      rw [if_neg hi]
      refine ⟨rfl, fun k hk => ?_⟩
      rw [if_neg (by omega)]
      omega

theorem add_length (f : Fenwick) (i : Nat) (x : Int) :
    (f.add i x).items.length = f.items.length :=
  (addAcc_spec x f.items.length f.items i (by omega)).1

theorem add_getD (f : Fenwick) (i : Nat) (x : Int) (k : Nat) (hk : k < f.items.length) :
    (f.add i x).items.getD k 0 =
      f.items.getD k 0 + (if k &&& (k+1) ≤ i ∧ i ≤ k then x else 0) :=
  (addAcc_spec x f.items.length f.items i (by omega)).2 k hk

theorem add_out (f : Fenwick) (i : Nat) (x : Int) (h : f.items.length ≤ i) :
    (f.add i x).items = f.items :=
  addAcc_out x f.items.length f.items i h

theorem add_total (f : Fenwick) (i : Nat) (x : Int) :
    (f.add i x).total = f.total + x := rfl

theorem SW_upd (w : Nat → Int) (i : Nat) (x : Int) :
    ∀ n, SW (updW w i x) n = SW w n + (if i < n then x - w i else 0) := by
  intro n
  induction n with
  | zero => simp [SW]
  | succ n ih =>
    simp only [SW, ih]
    by_cases hni : n = i
    · rw [if_neg (by omega), if_pos (by omega)]
      have e : updW w i x n = x := by simp [updW, hni]
      rw [e, hni]
      ring
    · have e : updW w i x n = w n := by simp [updW, hni]
      rw [e]
      by_cases hin : i < n
      · rw [if_pos hin, if_pos (by omega)]
        ring
      · rw [if_neg hin, if_neg (by omega)]
        ring

theorem SW_zero (n : Nat) : SW (fun _ => 0) n = 0 := by
  induction n with
  | zero => rfl
  | succ n ih => simp [SW, ih]

theorem valid_of_size (n : Nat) : Valid (Fenwick.of_size n).items (fun _ => 0) := by
  intro k hk
  simp only [Fenwick.of_size] at hk ⊢
  rw [List.length_replicate] at hk
  rw [getD_rep n k 0 hk, SW_zero, SW_zero]
  omega

theorem valid_add (f : Fenwick) (w : Nat → Int) (hv : Valid f.items w)
    (i : Nat) (x : Int) :
    Valid (f.add i x).items (updW w i (w i + x)) := by
  intro k hk
  rw [add_length] at hk
  rw [add_getD f i x k hk, hv k hk, SW_upd, SW_upd]
  have hAk : k &&& (k+1) ≤ k := Nat.and_le_left
  by_cases h2 : i < k &&& (k+1)
  · rw [if_neg (by omega), if_pos (by omega), if_pos h2]
    ring
  · by_cases h1 : i < k + 1
    · rw [if_pos ⟨by omega, by omega⟩, if_pos h1, if_neg h2]
      ring
    · rw [if_neg (by omega), if_neg h1, if_neg h2]
      ring

/-! ## Correctness of sum -/

theorem sumAcc_eq (items : List Int) (w : Nat → Int) (hv : Valid items w) :
    ∀ j, j ≤ items.length → ∀ lim,
      sumAcc items lim j j = SW w j - SW w (sumEnd lim j j) := by
  intro j
  induction j using Nat.strong_induction_on with
  | _ j ih =>
    intro hj lim
    rw [sumAcc_unfold, sumEnd_unfold]
    by_cases hlim : lim < j
    · rw [if_pos hlim, if_pos hlim]
      have hj0 : 0 < j := by omega
      have hlt : j &&& (j-1) < j := and_pred_lt j hj0
      have hcell := hv (j-1) (by omega)
      have e1 : (j-1) + 1 = j := by omega
      rw [e1] at hcell
      have e2 : (j-1) &&& j = j &&& (j-1) := Nat.and_comm _ _
      rw [e2] at hcell
      rw [hcell, ih (j &&& (j-1)) hlt (by omega) lim]
      ring
    · rw [if_neg hlim, if_neg hlim]
      ring

theorem sumEnd_le (i : Nat) : ∀ j, i ≤ j → sumEnd i j j ≤ i := by
  intro j
  induction j using Nat.strong_induction_on with
  | _ j ih =>
    intro hij
    rw [sumEnd_unfold]
    by_cases hlim : i < j
    · rw [if_pos hlim]
      have hj0 : 0 < j := by omega
      have hlt : j &&& (j-1) < j := and_pred_lt j hj0
      by_cases hij2 : i ≤ j &&& (j-1)
      · exact ih (j &&& (j-1)) hlt hij2
      · rw [sumEnd_unfold, if_neg (by omega)]
        omega
    · rw [if_neg hlim]
      omega

/-- Truncations (clearing the s lowest bits, written relationally as
i = 2^s·Q + t with t < 2^s) are fixed points of the descent from i with
themselves as the limit. -/
theorem sumEnd_trunc (s : Nat) :
    ∀ i, ∀ Q t, i = 2^s * Q + t → t < 2^s → sumEnd (2^s * Q) i i = 2^s * Q := by
  intro i
  induction i using Nat.strong_induction_on with
  | _ i ih =>
    intro Q t hi ht
    by_cases ht0 : t = 0
    · rw [sumEnd_unfold, if_neg (by omega)]
      omega
    · rw [sumEnd_unfold, if_pos (by omega)]
      have hi0 : 0 < i := by omega
      obtain ⟨z, C, hdec, hand⟩ := and_pred_decomp i hi0
      have hpz : (0:Nat) < 2^z := Nat.pos_pow_of_pos z (by norm_num)
      have hps : (0:Nat) < 2^s := Nat.pos_pow_of_pos s (by norm_num)
      have hq2 : (2:Nat)^(z+1) = 2*2^z := by ring
      have hzs : z + 1 ≤ s := by
        by_contra hc
        push_neg at hc
        have es1 : (2:Nat)^(z+1) = 2^s * 2^(z+1-s) := by
          rw [← pow_add]
          congr 1
          omega
        have es2 : (2:Nat)^z = 2^s * 2^(z-s) := by
          rw [← pow_add]
          congr 1
          omega
        have hA : i = 2^s * (2^(z+1-s)*C + 2^(z-s)) := by
          rw [hdec, es1, es2]
          ring
        rcases le_or_lt (2^(z+1-s)*C + 2^(z-s)) Q with hle | hlt2
        · have h2 := Nat.mul_le_mul_left (2^s) hle
          omega
        · have h3 := Nat.mul_le_mul_left (2^s) (show Q + 1 ≤ 2^(z+1-s)*C + 2^(z-s) from hlt2)
          have e3 : 2^s*(Q+1) = 2^s*Q + 2^s := by ring
          omega
      have hsplit : (2:Nat)^s = 2^(z+1) * 2^(s-z-1) := by
        rw [← pow_add]
        congr 1
        omega
      have eW : 2^s * Q = 2^(z+1) * (2^(s-z-1)*Q) := by
        rw [hsplit]
        ring
      have hEq : 2^(z+1) * (2^(s-z-1)*Q) + t = 2^(z+1)*C + 2^z := by
        rw [← eW]
        omega
      have htz : 2^z ≤ t := by
        rcases le_or_lt (2^(s-z-1)*Q) C with hWC | hCW
        · have h2 := Nat.mul_le_mul_left (2^(z+1)) hWC
          omega
        · have h3 := Nat.mul_le_mul_left (2^(z+1)) (show C + 1 ≤ 2^(s-z-1)*Q from hCW)
          have e3 : 2^(z+1)*(C+1) = 2^(z+1)*C + 2^(z+1) := by ring
          omega
      have hand_lt : i &&& (i-1) < i := and_pred_lt i hi0
      exact ih (i &&& (i-1)) hand_lt Q (t - 2^z) (by rw [hand]; omega) (by omega)

/-- The meeting point of the descent from j limited by i ≤ j is a
truncation of i. -/
theorem sumEnd_form (i : Nat) :
    ∀ j, i ≤ j → ∃ s Q t, i = 2^s * Q + t ∧ t < 2^s ∧ sumEnd i j j = 2^s * Q := by
  intro j
  induction j using Nat.strong_induction_on with
  | _ j ih =>
    intro hij
    rw [sumEnd_unfold]
    by_cases hlim : i < j
    · rw [if_pos hlim]
      have hj0 : 0 < j := by omega
      have hlt : j &&& (j-1) < j := and_pred_lt j hj0
      by_cases hij2 : i ≤ j &&& (j-1)
      · exact ih (j &&& (j-1)) hlt hij2
      · push_neg at hij2
        rw [sumEnd_unfold, if_neg (by omega)]
        obtain ⟨z, C, hdec, hand⟩ := and_pred_decomp j hj0
        have hpz : (0:Nat) < 2^z := Nat.pos_pow_of_pos z (by norm_num)
        have hq2 : (2:Nat)^(z+1) = 2*2^z := by ring
        refine ⟨z+1, C, i - 2^(z+1)*C, by rw [hand] at hij2; omega, by rw [hand] at hij2; omega, ?_⟩
        rw [hand]
    · rw [if_neg hlim]
      have he : i = j := by omega
      exact ⟨0, i, 0, by simp, by norm_num, by simp [he]⟩

theorem sumEnd_idem (i j : Nat) (h : i ≤ j) :
    sumEnd (sumEnd i j j) i i = sumEnd i j j := by
  obtain ⟨s, Q, t, h1, h2, h3⟩ := sumEnd_form i j h
  rw [h3]
  exact sumEnd_trunc s i Q t h1 h2

/-- Correctness of Fenwick::sum: on a valid tree it computes the range sum
of the abstract weights over [i, j). -/
theorem Fenwick.sum_eq (f : Fenwick) (w : Nat → Int) (hv : Valid f.items w)
    (i j : Nat) (hij : i ≤ j) (hj : j ≤ f.items.length) :
    f.sum i j = SW w j - SW w i := by
  show sumAcc f.items i j j - sumAcc f.items (sumEnd i j j) i i = _
  rw [sumAcc_eq f.items w hv j hj i,
      sumAcc_eq f.items w hv i (le_trans hij hj) (sumEnd i j j),
      sumEnd_idem i j hij]
  ring

/-- Correctness of Fenwick::get: on a valid tree it reads the abstract
weight at i. -/
theorem Fenwick.get_eq (f : Fenwick) (w : Nat → Int) (hv : Valid f.items w)
    (i : Nat) (hi : i < f.items.length) :
    f.get i = w i := by
  show f.sum i (i+1) = w i
  rw [Fenwick.sum_eq f w hv i (i+1) (by omega) (by omega)]
  simp [SW]

/-! ## Correctness of the binary-search sampler -/

theorem SW_mono (w : Nat → Int) (a b : Nat) (hab : a ≤ b)
    (hw : ∀ k, a ≤ k → k < b → 0 ≤ w k) : SW w a ≤ SW w b := by
  induction b with
  | zero =>
    have : a = 0 := by omega
    simp [this]
  | succ b ih =>
    by_cases hab' : a = b + 1
    · simp [hab']
    · have h1 : a ≤ b := by omega
      have h2 := ih h1 (fun k hk1 hk2 => hw k hk1 (by omega))
      have h3 : 0 ≤ w b := hw b h1 (by omega)
      simp only [SW]
      omega

theorem sampleAcc_spec (f : Fenwick) (w : Nat → Int) (hv : Valid f.items w) (x : Int) :
    ∀ fuel a i j, j - i ≤ fuel → i ≤ j → j < f.items.length →
      a = SW w i → SW w i < x → x ≤ SW w (j+1) →
      (i ≤ sampleAcc f x fuel a i j ∧ sampleAcc f x fuel a i j ≤ j ∧
       SW w (sampleAcc f x fuel a i j) < x ∧ x ≤ SW w (sampleAcc f x fuel a i j + 1)) := by
  intro fuel
  induction fuel with
  | zero =>
    intro a i j hfuel hij hjn ha hlt hle
    have he : i = j := by omega
    subst he
    simp only [sampleAcc]
    exact ⟨le_refl _, le_refl _, hlt, hle⟩
  | succ fuel ih =>
    intro a i j hfuel hij hjn ha hlt hle
    simp only [sampleAcc]
    by_cases hij' : i < j
    · rw [if_pos hij']
      have hm1 : i ≤ (i+j)/2 := by omega
      have hm2 : (i+j)/2 < j := by omega
      have hsum : f.sum i ((i+j)/2 + 1) = SW w ((i+j)/2 + 1) - SW w i :=
        Fenwick.sum_eq f w hv i ((i+j)/2 + 1) (by omega) (by omega)
      by_cases hbr : a + f.sum i ((i+j)/2 + 1) < x
      · rw [if_pos hbr]
        refine (ih (a + f.sum i ((i+j)/2 + 1)) ((i+j)/2 + 1) j (by omega) (by omega) hjn ?_ ?_ hle).imp ?_ id
        · rw [hsum, ha]
          ring
        · rw [hsum, ha] at hbr
          omega
        · intro h
          omega
      · rw [if_neg hbr]
        push_neg at hbr
        exact (ih a i ((i+j)/2) (by omega) (by omega) (by omega) ha hlt
          (by rw [hsum, ha] at hbr; omega)).imp id (fun h => h.imp (by omega) id)
    · rw [if_neg hij']
      have he : i = j := by omega
      subst he
      exact ⟨le_refl _, le_refl _, hlt, hle⟩

/-- Correctness of Fenwick::sample_one: on a valid tree with non-negative
weights whose total matches the stored weights, for any drawn x in
[1, total] the returned index is the smallest one whose inclusive prefix
sum reaches x. -/
theorem sample_one_spec (f : Fenwick) (w : Nat → Int) (hv : Valid f.items w)
    (hw : ∀ k, k < f.items.length → 0 ≤ w k)
    (htot : f.total = SW w f.items.length) (hn : 1 ≤ f.items.length)
    (x : Int) (hx1 : 1 ≤ x) (hx2 : x ≤ f.total) :
    f.sample_one x < f.items.length ∧
    SW w (f.sample_one x) < x ∧ x ≤ SW w (f.sample_one x + 1) ∧
    ∀ j, j < f.sample_one x → SW w (j+1) < x := by
  have hdef : f.sample_one x = sampleAcc f x (f.items.length - 1) 0 0 (f.items.length - 1) := rfl
  have h0 : SW w 0 = 0 := rfl
  have hspec := sampleAcc_spec f w hv x (f.items.length - 1) 0 0 (f.items.length - 1)
    (by omega) (by omega) (by omega) h0.symm (by omega)
    (by rw [show f.items.length - 1 + 1 = f.items.length by omega, ← htot]; exact hx2)
  obtain ⟨h1, h2, h3, h4⟩ := hspec
  rw [hdef]
  refine ⟨by omega, h3, h4, fun j hj => ?_⟩
  have hmono : SW w (j+1) ≤ SW w (sampleAcc f x (f.items.length - 1) 0 0 (f.items.length - 1)) := by
    apply SW_mono w (j+1) _ (by omega)
    intro k hk1 hk2
    exact hw k (by omega)
  omega

/-- The index returned by sample_one under the conditions above carries a
strictly positive weight; in particular a zero-weight (deactivated) index is
never selected. -/
theorem sample_one_pos (f : Fenwick) (w : Nat → Int) (hv : Valid f.items w)
    (hw : ∀ k, k < f.items.length → 0 ≤ w k)
    (htot : f.total = SW w f.items.length) (hn : 1 ≤ f.items.length)
    (x : Int) (hx1 : 1 ≤ x) (hx2 : x ≤ f.total) :
    f.sample_one x < f.items.length ∧ 0 < w (f.sample_one x) := by
  obtain ⟨h1, h2, h3, _⟩ := sample_one_spec f w hv hw htot hn x hx1 hx2
  refine ⟨h1, ?_⟩
  have : SW w (f.sample_one x + 1) = SW w (f.sample_one x) + w (f.sample_one x) := rfl
  omega

/-- The drawn value 1 + u.1·total/u.2 lies in [1, total] when the oracle
pair encodes a rational in [0,1). -/
theorem draw_bounds (total : Int) (u : Nat × Nat) (htot : 1 ≤ total)
    (hu : u.1 < u.2) :
    1 ≤ 1 + ((u.1 * total.toNat / u.2 : Nat) : Int) ∧
    1 + ((u.1 * total.toNat / u.2 : Nat) : Int) ≤ total := by
  have hb : 0 < u.2 := by omega
  have hT : (total.toNat : Int) = total := Int.toNat_of_nonneg (by omega)
  have h0 : (0:Int) ≤ ((u.1 * total.toNat / u.2 : Nat) : Int) := Int.natCast_nonneg _
  refine ⟨by linarith, ?_⟩
  have h1 : u.1 * total.toNat < total.toNat * u.2 := by
    have h2 : u.1 * total.toNat + total.toNat ≤ u.2 * total.toNat := by
      have h3 : (u.1 + 1) * total.toNat ≤ u.2 * total.toNat :=
        Nat.mul_le_mul_right _ (by omega)
      have e : (u.1 + 1) * total.toNat = u.1 * total.toNat + total.toNat := by ring
      omega
    have hTpos : 0 < total.toNat := by omega
    have e2 : u.2 * total.toNat = total.toNat * u.2 := by ring
    omega
  have h4 : u.1 * total.toNat / u.2 < total.toNat :=
    (Nat.div_lt_iff_lt_mul hb).mpr h1
  have h5 : ((u.1 * total.toNat / u.2 : Nat) : Int) < ((total.toNat : Nat) : Int) :=
    Int.ofNat_lt.mpr h4
  rw [hT] at h5
  linarith

/-- Behaviour of Fenwick::sample_draw on a positive total: the draw
succeeds and returns an in-range index of positive weight. -/
theorem sample_draw_pos (f : Fenwick) (w : Nat → Int) (hv : Valid f.items w)
    (hw : ∀ k, k < f.items.length → 0 ≤ w k)
    (htot : f.total = SW w f.items.length) (hn : 1 ≤ f.items.length)
    (htot1 : 1 ≤ f.total) (u : Nat × Nat) (hu : u.1 < u.2) :
    ∃ v, f.sample_draw u = some v ∧ v < f.items.length ∧ 0 < w v := by
  obtain ⟨hx1, hx2⟩ := draw_bounds f.total u htot1 hu
  obtain ⟨h1, h2⟩ := sample_one_pos f w hv hw htot hn
    (1 + ((u.1 * f.total.toNat / u.2 : Nat) : Int)) hx1 hx2
  refine ⟨f.sample_one (1 + ((u.1 * f.total.toNat / u.2 : Nat) : Int)), ?_, h1, h2⟩
  show Fenwick.sample_draw f u = _
  rw [Fenwick.sample_draw, if_neg (by omega)]

/-- Behaviour of Fenwick::sample_many under the same conditions: all m
draws succeed and every returned index is in range with positive weight. -/
theorem sampleManyAcc_pos (f : Fenwick) (w : Nat → Int) (hv : Valid f.items w)
    (hw : ∀ k, k < f.items.length → 0 ≤ w k)
    (htot : f.total = SW w f.items.length) (hn : 1 ≤ f.items.length)
    (htot1 : 1 ≤ f.total) (us : Nat → Nat × Nat) (hus : ∀ k, (us k).1 < (us k).2) :
    ∀ m k, ∃ l, sampleManyAcc f us m k = some l ∧ l.length = m ∧
      ∀ v ∈ l, v < f.items.length ∧ 0 < w v := by
  intro m
  induction m with
  | zero =>
    intro k
    exact ⟨[], rfl, rfl, by simp⟩
  | succ m ih =>
    intro k
    obtain ⟨v, hvdraw, hvlt, hvpos⟩ :=
      sample_draw_pos f w hv hw htot hn htot1 (us k) (hus k)
    obtain ⟨l, hl, hlen, hmem⟩ := ih (k+1)
    refine ⟨v :: l, ?_, by simp [hlen], ?_⟩
    · simp only [sampleManyAcc, hvdraw, hl]
    · intro v' hv'
      rcases List.mem_cons.mp hv' with h | h
      · subst h
        exact ⟨hvlt, hvpos⟩
      · exact hmem v' h

/-! ## Sequences of add and set operations -/

theorem set_total (f : Fenwick) (i : Nat) (x : Int) :
    (f.set i x).total = f.total + (x - f.get i) := rfl

theorem valid_set (f : Fenwick) (w : Nat → Int) (hv : Valid f.items w)
    (i : Nat) (x : Int) (hi : i < f.items.length) :
    Valid (f.set i x).items (updW w i x) := by
  have hg : f.get i = w i := Fenwick.get_eq f w hv i hi
  show Valid (f.add i (x - f.get i)).items _
  rw [hg]
  have h := valid_add f w hv i (x - w i)
  have e : w i + (x - w i) = x := by ring
  rw [e] at h
  exact h

/-- A recorded add or set operation on the index. -/
inductive FenOp
  | addOp (i : Nat) (x : Int)
  | setOp (i : Nat) (x : Int)

def FenOp.idx : FenOp → Nat
  | .addOp i _ => i
  | .setOp i _ => i

def applyOp (f : Fenwick) : FenOp → Fenwick
  | .addOp i x => f.add i x
  | .setOp i x => f.set i x

def applyOps (f : Fenwick) (ops : List FenOp) : Fenwick := ops.foldl applyOp f

/-- The abstract weights after one operation: add adjusts by a delta, set
overwrites. -/
def opW (w : Nat → Int) : FenOp → (Nat → Int)
  | .addOp i x => updW w i (w i + x)
  | .setOp i x => updW w i x

def opsW (w : Nat → Int) (ops : List FenOp) : Nat → Int := ops.foldl opW w

theorem applyOp_inv (f : Fenwick) (w : Nat → Int) (op : FenOp)
    (hv : Valid f.items w) (hidx : op.idx < f.items.length)
    (htot : f.total = SW w f.items.length) :
    (applyOp f op).items.length = f.items.length ∧
    Valid (applyOp f op).items (opW w op) ∧
    (applyOp f op).total = SW (opW w op) f.items.length := by
  cases op with
  | addOp i x =>
    have hidx' : i < f.items.length := hidx
    refine ⟨add_length f i x, valid_add f w hv i x, ?_⟩
    show f.total + x = SW (updW w i (w i + x)) f.items.length
    rw [SW_upd, if_pos hidx', htot]
    ring
  | setOp i x =>
    have hidx' : i < f.items.length := hidx
    refine ⟨add_length f i _, valid_set f w hv i x hidx', ?_⟩
    show (f.set i x).total = SW (updW w i x) f.items.length
    rw [set_total, SW_upd, if_pos hidx', htot, Fenwick.get_eq f w hv i hidx']

theorem applyOps_inv :
    ∀ (ops : List FenOp) (f : Fenwick) (w : Nat → Int), Valid f.items w →
      f.total = SW w f.items.length → (∀ op ∈ ops, op.idx < f.items.length) →
      (applyOps f ops).items.length = f.items.length ∧
      Valid (applyOps f ops).items (opsW w ops) ∧
      (applyOps f ops).total = SW (opsW w ops) f.items.length := by
  intro ops
  induction ops with
  | nil =>
    intro f w hv htot hidx
    exact ⟨rfl, hv, htot⟩
  | cons op ops ih =>
    intro f w hv htot hidx
    obtain ⟨h1, h2, h3⟩ := applyOp_inv f w op hv (hidx op (by simp)) htot
    have hidx' : ∀ op' ∈ ops, op'.idx < (applyOp f op).items.length := by
      intro op' hop'
      rw [h1]
      exact hidx op' (by simp [hop'])
    obtain ⟨g1, g2, g3⟩ := ih (applyOp f op) (opW w op) h2 (by rw [h1]; exact h3) hidx'
    refine ⟨?_, ?_, ?_⟩
    · show (applyOps (applyOp f op) ops).items.length = f.items.length
      rw [g1, h1]
    · show Valid (applyOps (applyOp f op) ops).items (opsW (opW w op) ops)
      exact g2
    · show (applyOps (applyOp f op) ops).total = SW (opsW (opW w op) ops) f.items.length
      rw [g3, h1]

theorem SW_eq_sum_range (w : Nat → Int) (n : Nat) :
    SW w n = ∑ k ∈ Finset.range n, w k := by
  induction n with
  | zero => rfl
  | succ n ih => rw [Finset.sum_range_succ, ← ih]; rfl

theorem SW_sub_eq_Ico (w : Nat → Int) (i j : Nat) (hij : i ≤ j) :
    SW w j - SW w i = ∑ k ∈ Finset.Ico i j, w k := by
  rw [SW_eq_sum_range, SW_eq_sum_range, Finset.sum_Ico_eq_sub _ hij]

/-! ## Claims C2 and C3 -/

/-- C2: for every Fenwick tree with non-negative weights and total > 0
(a valid tree whose total matches its stored weights), sample_one draws a
uniform integer x = 1 + floor(u·total) in [1, total], where u = a/b in
[0,1) is the uniform value provided by the random source, and returns the
smallest index i such that sum(0, i+1) ≥ x; in particular when x lands
exactly on a cumulative boundary, the returned index is the first one whose
prefix sum reaches or exceeds x. -/
theorem c2_sample_one_smallest (f : Fenwick) (w : Nat → Int) (hv : Valid f.items w)
    (hw : ∀ k, k < f.items.length → 0 ≤ w k)
    (htot : f.total = SW w f.items.length) (hn : 1 ≤ f.items.length)
    (htot1 : 0 < f.total) (u : Nat × Nat) (hu : u.1 < u.2) :
    f.sample_draw u = some (f.sample_one (1 + ((u.1 * f.total.toNat / u.2 : Nat) : Int))) ∧
    1 ≤ 1 + ((u.1 * f.total.toNat / u.2 : Nat) : Int) ∧
    1 + ((u.1 * f.total.toNat / u.2 : Nat) : Int) ≤ f.total ∧
    1 + ((u.1 * f.total.toNat / u.2 : Nat) : Int) ≤
      f.sum 0 (f.sample_one (1 + ((u.1 * f.total.toNat / u.2 : Nat) : Int)) + 1) ∧
    ∀ j, j < f.sample_one (1 + ((u.1 * f.total.toNat / u.2 : Nat) : Int)) →
      f.sum 0 (j+1) < 1 + ((u.1 * f.total.toNat / u.2 : Nat) : Int) := by
  obtain ⟨hx1, hx2⟩ := draw_bounds f.total u (by omega) hu
  obtain ⟨hlt, h2, h3, h4⟩ :=
    sample_one_spec f w hv hw htot hn (1 + ((u.1 * f.total.toNat / u.2 : Nat) : Int)) hx1 hx2
  have hdraw : f.sample_draw u =
      some (f.sample_one (1 + ((u.1 * f.total.toNat / u.2 : Nat) : Int))) := by
    show Fenwick.sample_draw f u = _
    rw [Fenwick.sample_draw, if_neg (by omega)]
  have hsum0 : ∀ k, k < f.items.length → f.sum 0 (k+1) = SW w (k+1) := by
    intro k hk
    rw [Fenwick.sum_eq f w hv 0 (k+1) (by omega) (by omega)]
    show _ - SW w 0 = _
    show _ - 0 = _
    ring
  refine ⟨hdraw, hx1, hx2, ?_, fun j hj => ?_⟩
  · rw [hsum0 _ hlt]
    exact h3
  · rw [hsum0 _ (by omega)]
    exact h4 j hj

/-- C2 witness: the tree with weights [1,2,3,4] (total 10) and u = 1/2, so
x = 6; the smallest index with inclusive prefix sum ≥ 6 is 2, and indeed
the inclusive prefix sums 1 and 3 at indices 0 and 1 fall short of 6 while
6 at index 2 reaches it. -/
theorem c2_sample_one_smallest_witness :
    (Valid (((((Fenwick.of_size 4).add 0 1).add 1 2).add 2 3).add 3 4).items
        (fun k => ([1, 2, 3, 4] : List Int).getD k 0) ∧
     (((((Fenwick.of_size 4).add 0 1).add 1 2).add 2 3).add 3 4).total = 10 ∧
     (1, 2).1 < (1, 2).2) ∧
    (((((Fenwick.of_size 4).add 0 1).add 1 2).add 2 3).add 3 4).sample_draw (1, 2)
      = some 2 := by
  have hv : Valid (((((Fenwick.of_size 4).add 0 1).add 1 2).add 2 3).add 3 4).items
      (fun k => ([1, 2, 3, 4] : List Int).getD k 0) := by
    show ∀ k, k < (((((Fenwick.of_size 4).add 0 1).add 1 2).add 2 3).add 3 4).items.length → _
    decide
  have hw : ∀ k, k < (((((Fenwick.of_size 4).add 0 1).add 1 2).add 2 3).add 3 4).items.length →
      0 ≤ (fun k => ([1, 2, 3, 4] : List Int).getD k 0) k := by decide
  have htot : (((((Fenwick.of_size 4).add 0 1).add 1 2).add 2 3).add 3 4).total =
      SW (fun k => ([1, 2, 3, 4] : List Int).getD k 0)
        (((((Fenwick.of_size 4).add 0 1).add 1 2).add 2 3).add 3 4).items.length := by decide
  have h := c2_sample_one_smallest
    (((((Fenwick.of_size 4).add 0 1).add 1 2).add 2 3).add 3 4)
    (fun k => ([1, 2, 3, 4] : List Int).getD k 0) hv hw htot
    (by decide) (by decide) (1, 2) (by decide)
  refine ⟨⟨hv, by decide, by decide⟩, ?_⟩
  rw [h.1]
  decide

/-- C3: for every Fenwick tree of any capacity and every sequence of add and
set operations at indices within capacity, sum(i, j) equals the brute-force
sum of the current individual weights over the half-open range [i, j), for
all 0 ≤ i ≤ j ≤ capacity, and get(i) equals sum(i, i+1). -/
theorem c3_sum_matches_brute_force (n : Nat) (ops : List FenOp)
    (hops : ∀ op ∈ ops, op.idx < n) (i j : Nat) (hij : i ≤ j) (hj : j ≤ n) :
    (applyOps (Fenwick.of_size n) ops).sum i j =
      ∑ k ∈ Finset.Ico i j, opsW (fun _ => 0) ops k ∧
    ∀ (g : Fenwick) (k : Nat), g.get k = g.sum k (k+1) := by
  have hlen : (Fenwick.of_size n).items.length = n := by
    simp [Fenwick.of_size]
  have htot0 : (Fenwick.of_size n).total = SW (fun _ => 0) (Fenwick.of_size n).items.length := by
    rw [hlen, SW_zero]
    rfl
  obtain ⟨h1, h2, h3⟩ := applyOps_inv ops (Fenwick.of_size n) (fun _ => 0)
    (valid_of_size n) htot0 (by rw [hlen]; exact hops)
  constructor
  · rw [Fenwick.sum_eq _ _ h2 i j hij (by rw [h1, hlen]; exact hj),
        SW_sub_eq_Ico _ _ _ hij]
  · intro g k
    rfl

/-- C3 witness: capacity 4 with the operation sequence add(0,1), set(1,5),
add(1,-2), set(3,2), leaving weights [1,3,0,2]; the tree answers 5 for the
range [1,4), which matches the brute-force sum 3+0+2. -/
theorem c3_sum_matches_brute_force_witness :
    ((∀ op ∈ [FenOp.addOp 0 1, FenOp.setOp 1 5, FenOp.addOp 1 (-2), FenOp.setOp 3 2],
        op.idx < 4) ∧ 1 ≤ 4 ∧ 4 ≤ 4) ∧
    (applyOps (Fenwick.of_size 4)
        [FenOp.addOp 0 1, FenOp.setOp 1 5, FenOp.addOp 1 (-2), FenOp.setOp 3 2]).sum 1 4 =
      ∑ k ∈ Finset.Ico 1 4,
        opsW (fun _ => 0) [FenOp.addOp 0 1, FenOp.setOp 1 5, FenOp.addOp 1 (-2), FenOp.setOp 3 2] k := by
  refine ⟨⟨?_, by omega, by omega⟩, ?_⟩
  · intro op hop
    fin_cases hop <;> decide
  · exact (c3_sum_matches_brute_force 4
      [FenOp.addOp 0 1, FenOp.setOp 1 5, FenOp.addOp 1 (-2), FenOp.setOp 3 2]
      (by intro op hop; fin_cases hop <;> decide) 1 4 (by omega) (by omega)).1

/-! ## The hypergraph (src/core/hypergraph.rs) -/

structure Hypergraph where
  vertices : Nat
  edges : List (List Nat)
  degree : List Nat
deriving DecidableEq

/-- Hypergraph::initial: one vertex with a single self hyperedge of size 1. -/
def Hypergraph.initial : Hypergraph :=
  { vertices := 1, edges := [[0]], degree := [1] }

/-- Hypergraph::add_vertex: returns the updated hypergraph and the index of
the added vertex. -/
def Hypergraph.add_vertex (h : Hypergraph) : Hypergraph × Nat :=
  ({ h with vertices := h.vertices + 1, degree := h.degree ++ [0] }, h.vertices)

/-- The degree bumps of Hypergraph::add_edge: one increment per occurrence
of a vertex in the hyperedge. -/
def bumpDegrees (d : List Nat) (e : List Nat) : List Nat :=
  e.foldl (fun d v => d.set v (d.getD v 0 + 1)) d

/-- Hypergraph::add_edge. -/
def Hypergraph.add_edge (h : Hypergraph) (e : List Nat) : Hypergraph :=
  { h with degree := bumpDegrees h.degree e, edges := h.edges ++ [e] }

/-! ## The model (src/core/model.rs) -/

structure Model where
  pv : ℚ
  pe : ℚ
  pd : ℚ
  m : Nat

/-- f64::EPSILON, the machine epsilon 2^-52, as an exact rational. -/
def f64Eps : ℚ := 1 / 2^52

/-- Model::new: parameter validation, with the f64 parameters embedded as
exact rationals. -/
def Model.new (pv pe pd : ℚ) (m : Nat) : Except String Model :=
  if pv < 0 ∨ pe < 0 ∨ pd < 0 then
    .error "Expected `pv`, `pe` and `pd` to be positive"
  else if f64Eps ≤ |pv + pe + pd - 1| then
    .error "Expected `pv`, `pe` and `pd` to sum up to 1"
  else if pv ≤ pd then
    .error "Expected `pv > pd` to hold"
  else if m < 1 then
    .error "Expected `m` to be a positive integer"
  else
    .ok { pv := pv, pe := pe, pd := pd, m := m }

/-- Model::size: the hyperedge size at step t (constant m in this model). -/
def Model.size (mo : Model) (t : Nat) : Nat := mo.m

/-! ## The simulation loop (src/core/simulation.rs) -/

inductive EventKind
  | vertexArrival
  | edgeArrival
  | deactivation
deriving DecidableEq

/-- The branch structure of the event selection in Simulation::run: the
drawn p ≤ pv chooses a vertex arrival, otherwise p ≤ pv + pe chooses an
edge arrival, otherwise a vertex deactivation. -/
def eventKind (mo : Model) (p : ℚ) : EventKind :=
  if p ≤ mo.pv then .vertexArrival
  else if p ≤ mo.pv + mo.pe then .edgeArrival
  else .deactivation

/-- The oracle input of one step: the uniform f64 p drawn by gen::<f64>(),
and the stream of uniform values consumed by the successive gen_range calls
of this step. -/
structure StepRand where
  p : ℚ
  us : Nat → Nat × Nat

/-- The f64 ratio active_squares / active_degrees recorded into theta
(division by zero would give NaN in Rust; the value is recorded but never
read back by the engine). -/
def ratioQ (a b : Nat) : ℚ := (a : ℚ) / (b : ℚ)

structure SimState where
  hypergraph : Hypergraph
  fenwick : Fenwick
  active_squares : Nat
  active_degrees : Nat
  theta : List ℚ

inductive RunError
  | exhausted
  | badSample
deriving DecidableEq

/-- One iteration of the per-edge update loop shared by the two arrival
events: read the degree from the pre-edge hypergraph, add 1 to the weight
in the index, bump active_degrees by 1 and active_squares by 2·deg+1.  The
accumulator is (fenwick, active_degrees, active_squares). -/
def edgeFold (h : Hypergraph) (acc : Fenwick × Nat × Nat) (u : Nat) : Fenwick × Nat × Nat :=
  (acc.1.add u 1, acc.2.1 + 1, acc.2.2 + (2 * h.degree.getD u 0 + 1))

/-- The body of the simulation loop of Simulation::run at step t. -/
def step (mo : Model) (t : Nat) (r : StepRand) (s : SimState) : Except RunError SimState :=
  if s.active_degrees = 0 then .error .exhausted
  else
    match eventKind mo r.p with
    | .vertexArrival =>
      match s.hypergraph.add_vertex with
      | (h1, v) =>
        match s.fenwick.sample_many (mo.size t - 1) r.us with
        | none => .error .badSample
        | some e0 =>
          match (e0 ++ [v]).foldl (edgeFold h1) (s.fenwick, s.active_degrees, s.active_squares) with
          | (f1, dg1, sq1) =>
            .ok { hypergraph := h1.add_edge (e0 ++ [v]), fenwick := f1,
                  active_squares := sq1, active_degrees := dg1,
                  theta := s.theta ++ [ratioQ sq1 dg1] }
    | .edgeArrival =>
      match s.fenwick.sample_many (mo.size t) r.us with
      | none => .error .badSample
      | some e =>
        match e.foldl (edgeFold s.hypergraph) (s.fenwick, s.active_degrees, s.active_squares) with
        | (f1, dg1, sq1) =>
          .ok { hypergraph := s.hypergraph.add_edge e, fenwick := f1,
                active_squares := sq1, active_degrees := dg1,
                theta := s.theta ++ [ratioQ sq1 dg1] }
    | .deactivation =>
      match s.fenwick.sample_draw (r.us 0) with
      | none => .error .badSample
      | some v =>
        .ok { hypergraph := s.hypergraph,
              fenwick := s.fenwick.set v 0,
              active_squares := s.active_squares - s.hypergraph.degree.getD v 0 * s.hypergraph.degree.getD v 0,
              active_degrees := s.active_degrees - s.hypergraph.degree.getD v 0,
              theta := s.theta ++
                [ratioQ (s.active_squares - s.hypergraph.degree.getD v 0 * s.hypergraph.degree.getD v 0)
                        (s.active_degrees - s.hypergraph.degree.getD v 0)] }

/-- One iteration of the initialisation loop of Simulation::run: seed the
index with the degree of each initial vertex and accumulate the running
statistics.  The accumulator is (fenwick, active_degrees, active_squares). -/
def initFold (h : Hypergraph) (acc : Fenwick × Nat × Nat) (v : Nat) : Fenwick × Nat × Nat :=
  (acc.1.set v (h.degree.getD v 0), acc.2.1 + h.degree.getD v 0,
   acc.2.2 + h.degree.getD v 0 * h.degree.getD v 0)

/-- The state of Simulation::run before the first step: the initial
hypergraph, a Fenwick index of capacity steps seeded with the initial
degrees, and theta[0]. -/
def initState (steps : Nat) : SimState :=
  match (List.range Hypergraph.initial.vertices).foldl (initFold Hypergraph.initial)
      (Fenwick.of_size steps, 0, 0) with
  | (f, dg, sq) =>
    { hypergraph := Hypergraph.initial, fenwick := f, active_squares := sq,
      active_degrees := dg, theta := [ratioQ sq dg] }

/-- The simulation loop: k remaining steps, current step index t. -/
def runAux (mo : Model) (rand : Nat → StepRand) : Nat → Nat → SimState → Except RunError SimState
  | 0, _, s => .ok s
  | k+1, t, s =>
    match step mo t (rand t) s with
    | .error e => .error e
    | .ok s1 => runAux mo rand k (t+1) s1

structure Simulation where
  model : Model
  hypergraph : Hypergraph
  steps : Nat
  theta : List ℚ

/-- Simulation::run. -/
def Simulation.run (mo : Model) (steps : Nat) (rand : Nat → StepRand) :
    Except RunError Simulation :=
  match runAux mo rand steps 1 (initState steps) with
  | .error e => .error e
  | .ok s => .ok { model := mo, hypergraph := s.hypergraph, steps := steps, theta := s.theta }

/-- The engine state after the first t steps of a run whose step budget is
steps (the budget fixes the index capacity). -/
def stateAfter (mo : Model) (steps : Nat) (rand : Nat → StepRand) (t : Nat) :
    Except RunError SimState :=
  runAux mo rand t 1 (initState steps)

/-! ## Claim C7: model validation -/

/-- C7: Model::new(pv, pe, pd, m) returns Ok exactly when pv ≥ 0, pe ≥ 0,
pd ≥ 0, |pv + pe + pd - 1| < ε, pv > pd and m ≥ 1 all hold; the returned
model carries exactly the given parameters (never a silently clamped
model), and whenever any of these constraints is violated it returns a
descriptive validation error. -/
theorem c7_model_new_validation (pv pe pd : ℚ) (m : Nat) :
    ((∃ mo, Model.new pv pe pd m = .ok mo) ↔
      (0 ≤ pv ∧ 0 ≤ pe ∧ 0 ≤ pd ∧ |pv + pe + pd - 1| < f64Eps ∧ pd < pv ∧ 1 ≤ m)) ∧
    (∀ mo, Model.new pv pe pd m = .ok mo →
      mo.pv = pv ∧ mo.pe = pe ∧ mo.pd = pd ∧ mo.m = m) ∧
    (¬(0 ≤ pv ∧ 0 ≤ pe ∧ 0 ≤ pd ∧ |pv + pe + pd - 1| < f64Eps ∧ pd < pv ∧ 1 ≤ m) →
      ∃ msg, Model.new pv pe pd m = .error msg) := by
  unfold Model.new
  split_ifs with h1 h2 h3 h4
  · refine ⟨⟨?_, ?_⟩, ?_, ?_⟩
    · rintro ⟨mo, hmo⟩
      exact absurd hmo (by simp)
    · rintro ⟨c1, c2, c3, -, -, -⟩
      rcases h1 with h | h | h <;> linarith
    · intro mo hmo
      exact absurd hmo (by simp)
    · intro _
      exact ⟨_, rfl⟩
  · refine ⟨⟨?_, ?_⟩, ?_, ?_⟩
    · rintro ⟨mo, hmo⟩
      exact absurd hmo (by simp)
    · rintro ⟨-, -, -, c4, -, -⟩
      linarith
    · intro mo hmo
      exact absurd hmo (by simp)
    · intro _
      exact ⟨_, rfl⟩
  · refine ⟨⟨?_, ?_⟩, ?_, ?_⟩
    · rintro ⟨mo, hmo⟩
      exact absurd hmo (by simp)
    · rintro ⟨-, -, -, -, c5, -⟩
      linarith
    · intro mo hmo
      exact absurd hmo (by simp)
    · intro _
      exact ⟨_, rfl⟩
  · refine ⟨⟨?_, ?_⟩, ?_, ?_⟩
    · rintro ⟨mo, hmo⟩
      exact absurd hmo (by simp)
    · rintro ⟨-, -, -, -, -, c6⟩
      omega
    · intro mo hmo
      exact absurd hmo (by simp)
    · intro _
      exact ⟨_, rfl⟩
  · push_neg at h1
    refine ⟨⟨?_, ?_⟩, ?_, ?_⟩
    · intro _
      exact ⟨h1.1, h1.2.1, h1.2.2, by linarith [not_le.mp h2], not_le.mp h3, by omega⟩
    · intro _
      exact ⟨_, rfl⟩
    · intro mo hmo
      cases hmo
      exact ⟨rfl, rfl, rfl, rfl⟩
    · intro hc
      exact absurd ⟨h1.1, h1.2.1, h1.2.2, by linarith [not_le.mp h2], not_le.mp h3, by omega⟩ hc

/-- C7 witness: the valid parameter set (0.3, 0.49, 0.21, 3) is accepted,
and its single-constraint violations are each rejected. -/
theorem c7_model_new_validation_witness :
    (∃ mo, Model.new (3/10) (49/100) (21/100) 3 = .ok mo) ∧
    (∃ msg, Model.new (21/100) (49/100) (3/10) 3 = .error msg) := by
  constructor
  · exact (c7_model_new_validation (3/10) (49/100) (21/100) 3).1.mpr
      (by norm_num [f64Eps])
  · exact (c7_model_new_validation (21/100) (49/100) (3/10) 3).2.2
      (by norm_num)

/-! ## Claim C6: the event partition -/

/-- C6 counterexample: at the exact boundary p = pv the code takes the
vertex-arrival branch (p ≤ pv), although the claimed partition assigns this
point to the edge-arrival event since p < pv fails and pv ≤ p < pv + pe
holds. -/
theorem c6_event_partition_counterexample :
    eventKind { pv := 1/2, pe := 1/4, pd := 1/4, m := 2 } (1/2) = EventKind.vertexArrival ∧
    ¬((1/2 : ℚ) < (1/2 : ℚ)) ∧
    ((1/2 : ℚ) ≤ (1/2 : ℚ) ∧ (1/2 : ℚ) < (1/2 : ℚ) + (1/4 : ℚ)) ∧
    EventKind.vertexArrival ≠ EventKind.edgeArrival := by
  refine ⟨?_, by norm_num, by norm_num, by decide⟩
  unfold eventKind
  rw [if_pos (le_refl _)]

/-- C6 amended: for a model with pe ≥ 0, the event applied at a step is
determined by partitioning with closed left boundaries on the code's side:
a VertexArrival occurs exactly when p ≤ pv, an EdgeArrival exactly when
pv < p ≤ pv + pe, and a VertexDeactivation exactly when pv + pe < p. -/
theorem c6_event_partition_amended (mo : Model) (p : ℚ) (hpe : 0 ≤ mo.pe) :
    (eventKind mo p = EventKind.vertexArrival ↔ p ≤ mo.pv) ∧
    (eventKind mo p = EventKind.edgeArrival ↔ (mo.pv < p ∧ p ≤ mo.pv + mo.pe)) ∧
    (eventKind mo p = EventKind.deactivation ↔ mo.pv + mo.pe < p) := by
  unfold eventKind
  by_cases h1 : p ≤ mo.pv
  · rw [if_pos h1]
    refine ⟨⟨fun _ => h1, fun _ => rfl⟩, ⟨fun hc => absurd hc (by decide), ?_⟩,
      ⟨fun hc => absurd hc (by decide), fun hc => absurd hc (by linarith)⟩⟩
    rintro ⟨hlt, -⟩
    linarith
  · rw [if_neg h1]
    push_neg at h1
    by_cases h2 : p ≤ mo.pv + mo.pe
    · rw [if_pos h2]
      refine ⟨⟨fun hc => absurd hc (by decide), fun hc => absurd hc (by linarith)⟩,
        ⟨fun _ => ⟨h1, h2⟩, fun _ => rfl⟩,
        ⟨fun hc => absurd hc (by decide), fun hc => absurd hc (by linarith)⟩⟩
    · rw [if_neg h2]
      push_neg at h2
      refine ⟨⟨fun hc => absurd hc (by decide), fun hc => absurd hc (by linarith)⟩,
        ⟨fun hc => absurd hc (by decide), fun hc => absurd hc.2 (by linarith)⟩,
        ⟨fun _ => h2, fun _ => rfl⟩⟩

/-- C6 witness for the amended partition: with pv = 1/2, pe = 1/4 the draw
p = 3/5 satisfies pv < p ≤ pv + pe, and the event is an edge arrival. -/
theorem c6_event_partition_amended_witness :
    (0 ≤ ({ pv := 1/2, pe := 1/4, pd := 1/4, m := 2 } : Model).pe) ∧
    (eventKind { pv := 1/2, pe := 1/4, pd := 1/4, m := 2 } (3/5) = EventKind.edgeArrival ↔
      (({ pv := 1/2, pe := 1/4, pd := 1/4, m := 2 } : Model).pv < 3/5 ∧
       (3/5 : ℚ) ≤ ({ pv := 1/2, pe := 1/4, pd := 1/4, m := 2 } : Model).pv +
         ({ pv := 1/2, pe := 1/4, pd := 1/4, m := 2 } : Model).pe)) := by
  have hpe : 0 ≤ ({ pv := 1/2, pe := 1/4, pd := 1/4, m := 2 } : Model).pe := by norm_num
  exact ⟨hpe, (c6_event_partition_amended { pv := 1/2, pe := 1/4, pd := 1/4, m := 2 } (3/5) hpe).2.1⟩

/-! ## Evaluation lemmas for the run loop -/

theorem runAux_zero (mo : Model) (rand : Nat → StepRand) (t : Nat) (s : SimState) :
    runAux mo rand 0 t s = .ok s := rfl

theorem runAux_step_ok (mo : Model) (rand : Nat → StepRand) (k t : Nat)
    (s s1 : SimState) (h : step mo t (rand t) s = .ok s1) :
    runAux mo rand (k+1) t s = runAux mo rand k (t+1) s1 := by
  simp only [runAux, h]

theorem runAux_step_err (mo : Model) (rand : Nat → StepRand) (k t : Nat)
    (s : SimState) (e : RunError) (h : step mo t (rand t) s = .error e) :
    runAux mo rand (k+1) t s = .error e := by
  simp only [runAux, h]

/-! ## Claim C1: the capacity of the index -/

/-- Projection of the observables for the capacity claim: the running
total, the tree's answer for the whole range [0, capacity), the capacity
itself, and the number of vertices of the hypergraph. -/
def fenwickSummary (s : SimState) : Int × Int × Nat × Nat :=
  (s.fenwick.total, s.fenwick.sum 0 s.fenwick.items.length,
   s.fenwick.items.length, s.hypergraph.vertices)

/-- A valid model (pv = 3/5 > pd = 1/5, pv+pe+pd = 1, m = 1) whose run of a
single step performs one vertex arrival. -/
def moC1 : Model := { pv := 3/5, pe := 1/5, pd := 1/5, m := 1 }

/-- A random stream that always chooses p = 1/2 (a vertex arrival under
moC1) and feeds u = 0 to every gen_range call. -/
def randC1 : Nat → StepRand := fun _ => { p := 1/2, us := fun _ => (0, 1) }

/-- C1: the index is sized Fenwick::of_size(steps), i.e. capacity = steps,
but a run of steps vertex arrivals references 1 + steps distinct vertices.
At steps = 1 with every step a vertex arrival, the final state has 2
distinct vertices against capacity 1, and the out-of-range
Fenwick::add(1, 1) updated no cell while still incrementing the running
total, so total = 2 while the stored weights sum to 1: the claimed
invariant total = Σ stored weights is broken.  This contradicts the stated
capacity requirement, so the sizing is an off-by-one defect in the code
(Fenwick::of_size(steps) instead of steps + 1). -/
theorem c1_capacity_off_by_one :
    (stateAfter moC1 1 randC1 1).map fenwickSummary = .ok (2, 1, 1, 2) := by
  have hek : eventKind moC1 (randC1 1).p = EventKind.vertexArrival := by
    show eventKind moC1 (1/2) = EventKind.vertexArrival
    unfold eventKind
    rw [if_pos (show (1:ℚ)/2 ≤ moC1.pv by norm_num [moC1])]
  have hstep : step moC1 1 (randC1 1) (initState 1) =
      .ok { hypergraph := { vertices := 2, edges := [[0], [1]], degree := [1, 1] },
            fenwick := { items := [1], total := 2 },
            active_squares := 2, active_degrees := 2,
            theta := [ratioQ 1 1, ratioQ 2 2] } := by
    unfold step
    rw [if_neg (by decide), hek]
    rfl
  have hrun : stateAfter moC1 1 randC1 1 =
      .ok { hypergraph := { vertices := 2, edges := [[0], [1]], degree := [1, 1] },
            fenwick := { items := [1], total := 2 },
            active_squares := 2, active_degrees := 2,
            theta := [ratioQ 1 1, ratioQ 2 2] } := by
    show runAux moC1 randC1 (0+1) 1 (initState 1) = _
    rw [runAux_step_ok moC1 randC1 0 1 (initState 1) _ hstep]
    rfl
  rw [hrun]
  rfl

/-! ## Ghost weights for the running invariant -/

/-- Point update of a Nat weight function. -/
def updN (w : Nat → Nat) (i x : Nat) : Nat → Nat :=
  fun k => if k = i then x else w k

/-- The weights after attaching one hyperedge: one increment per
occurrence. -/
def bumpN (w : Nat → Nat) (e : List Nat) : Nat → Nat :=
  fun v => w v + e.count v

/-- Sum of a Nat weight function over [0, n). -/
def sumTo (w : Nat → Nat) : Nat → Nat
  | 0 => 0
  | n+1 => sumTo w n + w n

theorem SW_congr (w1 w2 : Nat → Int) (h : ∀ k, w1 k = w2 k) :
    ∀ n, SW w1 n = SW w2 n := by
  intro n
  induction n with
  | zero => rfl
  | succ n ih => simp only [SW, ih, h]

theorem Valid_congr (items : List Int) (w1 w2 : Nat → Int) (h : ∀ k, w1 k = w2 k)
    (hv : Valid items w1) : Valid items w2 := by
  intro k hk
  rw [hv k hk, SW_congr w1 w2 h, SW_congr w1 w2 h]

theorem SW_cast (w : Nat → Nat) (n : Nat) :
    SW (fun k => (w k : Int)) n = (sumTo w n : Int) := by
  induction n with
  | zero => rfl
  | succ n ih =>
    simp only [SW, sumTo, ih]
    push_cast
    ring

theorem sumTo_zero : ∀ n, sumTo (fun _ => 0) n = 0 := by
  intro n
  induction n with
  | zero => rfl
  | succ n ih => simpa [sumTo] using ih

theorem sumTo_ext_zero (w : Nat → Nat) (a : Nat) :
    ∀ n, a ≤ n → (∀ v, a ≤ v → w v = 0) → sumTo w n = sumTo w a := by
  intro n
  induction n with
  | zero =>
    intro ha _
    have : a = 0 := by omega
    rw [this]
  | succ n ih =>
    intro ha h0
    by_cases he : a = n + 1
    · rw [he]
    · have h1 : a ≤ n := by omega
      simp only [sumTo, ih h1 h0, h0 n h1]
      omega

theorem sumTo_term_le (w : Nat → Nat) (v : Nat) :
    ∀ n, v < n → w v ≤ sumTo w n := by
  intro n
  induction n with
  | zero => omega
  | succ n ih =>
    intro hv
    by_cases he : v = n
    · subst he
      simp only [sumTo]
      omega
    · have := ih (by omega)
      simp only [sumTo]
      omega

theorem sumTo_congr (w1 w2 : Nat → Nat) :
    ∀ n, (∀ k, k < n → w1 k = w2 k) → sumTo w1 n = sumTo w2 n := by
  intro n
  induction n with
  | zero => intro _; rfl
  | succ n ih =>
    intro h
    simp only [sumTo, ih (fun k hk => h k (by omega)), h n (by omega)]

theorem sumTo_upd_zero (w : Nat → Nat) (v : Nat) :
    ∀ n, v < n → sumTo (updN w v 0) n = sumTo w n - w v := by
  intro n
  induction n with
  | zero => omega
  | succ n ih =>
    intro hv
    by_cases he : v = n
    · subst he
      have h1 : sumTo (updN w v 0) v = sumTo w v :=
        sumTo_congr _ _ v (fun k hk => by
          show (if k = v then 0 else w k) = w k
          rw [if_neg (by omega)])
      have h2 : updN w v 0 v = 0 := by
        show (if v = v then 0 else w v) = 0
        rw [if_pos rfl]
      simp only [sumTo, h1, h2]
      omega
    · have hvn : v < n := by omega
      have h2 : updN w v 0 n = w n := by
        show (if n = v then 0 else w n) = w n
        rw [if_neg (by omega)]
      have h3 := sumTo_term_le w v n hvn
      simp only [sumTo, ih hvn, h2]
      omega

theorem sumTo_add (f g : Nat → Nat) :
    ∀ n, sumTo (fun v => f v + g v) n = sumTo f n + sumTo g n := by
  intro n
  induction n with
  | zero => rfl
  | succ n ih =>
    simp only [sumTo, ih]
    omega

theorem sumTo_indicator (u : Nat) :
    ∀ n, u < n → sumTo (fun v => if v = u then 1 else 0) n = 1 := by
  intro n
  induction n with
  | zero => omega
  | succ n ih =>
    intro hu
    by_cases he : u = n
    · subst he
      have h1 : sumTo (fun v => if v = u then 1 else 0) u = 0 := by
        rw [sumTo_congr _ (fun _ => 0) u (fun k hk => by rw [if_neg (by omega)]), sumTo_zero]
      show sumTo _ u + (if u = u then 1 else 0) = 1
      rw [h1, if_pos rfl]
    · have h2 := ih (by omega)
      show sumTo _ n + (if n = u then 1 else 0) = 1
      rw [h2, if_neg (fun h => he h.symm)]

theorem count_cons_ite (u k : Nat) (e : List Nat) :
    (u :: e).count k = e.count k + (if k = u then 1 else 0) := by
  rw [List.count_cons]
  by_cases h : k = u
  · rw [if_pos h, if_pos (by simp [h])]
  · rw [if_neg h, if_neg (by simp [Ne.symm h])]

theorem sumTo_count (e : List Nat) :
    ∀ n, (∀ x ∈ e, x < n) → sumTo (fun v => e.count v) n = e.length := by
  induction e with
  | nil =>
    intro n _
    rw [sumTo_congr _ (fun _ => 0) n (fun k hk => by simp), sumTo_zero]
    rfl
  | cons u e ih =>
    intro n hmem
    rw [sumTo_congr _ (fun v => e.count v + (if v = u then 1 else 0)) n
          (fun k hk => count_cons_ite u k e),
        sumTo_add, ih n (fun x hx => hmem x (by simp [hx])),
        sumTo_indicator u n (hmem u (by simp))]
    simp

theorem sumTo_bumpN (w : Nat → Nat) (e : List Nat) (n : Nat)
    (hmem : ∀ x ∈ e, x < n) : sumTo (bumpN w e) n = sumTo w n + e.length := by
  show sumTo (fun v => w v + e.count v) n = _
  rw [sumTo_add, sumTo_count e n hmem]

theorem bumpN_zero (w : Nat → Nat) (e : List Nat) (v : Nat)
    (hw : w v = 0) (hv : v ∉ e) : bumpN w e v = 0 := by
  show w v + e.count v = 0
  rw [hw, List.count_eq_zero_of_not_mem hv]

theorem bumpN_cons (w : Nat → Nat) (u : Nat) (e : List Nat) (v : Nat) :
    bumpN (updN w u (w u + 1)) e v = bumpN w (u :: e) v := by
  show updN w u (w u + 1) v + e.count v = w v + (u :: e).count v
  rw [count_cons_ite]
  by_cases h : v = u
  · subst h
    show (if v = v then w v + 1 else w v) + _ = _
    rw [if_pos rfl, if_pos rfl]
    omega
  · show (if v = u then w u + 1 else w v) + _ = _
    rw [if_neg h, if_neg h]
    omega

/-! ## Facts about the degree array -/

theorem getD_set_eqN (l : List Nat) (i : Nat) (a d : Nat) (h : i < l.length) :
    (l.set i a).getD i d = a := by
  simp [List.getD_eq_getElem?_getD, List.getElem?_set, h]

theorem getD_set_neN (l : List Nat) (i k : Nat) (a d : Nat) (h : k ≠ i) :
    (l.set i a).getD k d = l.getD k d := by
  simp only [List.getD_eq_getElem?_getD, List.getElem?_set]
  rw [if_neg (fun he => h he.symm)]

theorem getD_append_lt (l l' : List Nat) (i d : Nat) (h : i < l.length) :
    (l ++ l').getD i d = l.getD i d := by
  simp [List.getD_eq_getElem?_getD, List.getElem?_append_left h]

theorem getD_append_len (l : List Nat) (x d : Nat) :
    (l ++ [x]).getD l.length d = x := by
  simp [List.getD_eq_getElem?_getD]

theorem bumpDegrees_length (e : List Nat) :
    ∀ d : List Nat, (bumpDegrees d e).length = d.length := by
  induction e with
  | nil => intro d; rfl
  | cons u e ih =>
    intro d
    show (bumpDegrees (d.set u (d.getD u 0 + 1)) e).length = _
    rw [ih, List.length_set]

theorem bumpDegrees_getD (e : List Nat) :
    ∀ d : List Nat, (∀ x ∈ e, x < d.length) → ∀ u,
      (bumpDegrees d e).getD u 0 = d.getD u 0 + e.count u := by
  induction e with
  | nil =>
    intro d _ u
    show d.getD u 0 = d.getD u 0 + List.count u []
    simp
  | cons x e ih =>
    intro d hmem u
    show (bumpDegrees (d.set x (d.getD x 0 + 1)) e).getD u 0 = _
    rw [ih (d.set x (d.getD x 0 + 1))
        (by rw [List.length_set]; exact fun y hy => hmem y (by simp [hy])) u]
    rw [count_cons_ite]
    by_cases h : u = x
    · subst h
      rw [getD_set_eqN d u _ 0 (hmem u (by simp)), if_pos rfl]
      omega
    · rw [getD_set_neN d x u _ 0 h, if_neg h]
      omega

theorem sum_set_bump (l : List Nat) :
    ∀ i, i < l.length → (l.set i (l.getD i 0 + 1)).sum = l.sum + 1 := by
  induction l with
  | nil =>
    intro i hi
    simp at hi
  | cons a l ih =>
    intro i hi
    cases i with
    | zero =>
      show ((a + 1) :: l).sum = (a :: l).sum + 1
      simp only [List.sum_cons]
      omega
    | succ i =>
      show (a :: l.set i ((a :: l).getD (i+1) 0 + 1)).sum = (a :: l).sum + 1
      have hg : (a :: l).getD (i+1) 0 = l.getD i 0 := rfl
      rw [hg]
      simp only [List.sum_cons, ih i (by simpa using hi)]
      omega

theorem bumpDegrees_sum (e : List Nat) :
    ∀ d : List Nat, (∀ x ∈ e, x < d.length) → (bumpDegrees d e).sum = d.sum + e.length := by
  induction e with
  | nil =>
    intro d _
    show d.sum = d.sum + ([] : List Nat).length
    simp
  | cons x e ih =>
    intro d hmem
    show (bumpDegrees (d.set x (d.getD x 0 + 1)) e).sum = _
    rw [ih _ (by rw [List.length_set]; exact fun y hy => hmem y (by simp [hy])),
        sum_set_bump d x (hmem x (by simp))]
    simp only [List.length_cons]
    omega

/-! ## The master invariant of the simulation loop -/

/-- The state invariant of Simulation::run after t steps, relative to a
ghost weight function w: w v is the current degree of v when v is active,
and 0 when v has been deactivated or does not exist yet.  cap is the index
capacity (= steps). -/
def SimInv (cap t : Nat) (w : Nat → Nat) (s : SimState) : Prop :=
  s.fenwick.items.length = cap ∧
  s.hypergraph.degree.length = s.hypergraph.vertices ∧
  1 ≤ s.hypergraph.vertices ∧
  s.hypergraph.vertices ≤ 1 + t ∧
  (∀ v, s.hypergraph.vertices ≤ v → w v = 0) ∧
  (∀ v, v < s.hypergraph.vertices →
    w v = 0 ∨ w v = s.hypergraph.degree.getD v 0) ∧
  Valid s.fenwick.items (fun k => (w k : Int)) ∧
  s.fenwick.total = (s.active_degrees : Int) ∧
  s.active_degrees = sumTo w s.hypergraph.vertices ∧
  s.hypergraph.degree.sum = (s.hypergraph.edges.map List.length).sum ∧
  s.theta.length = t + 1 ∧
  s.theta.getD t 0 = ratioQ s.active_squares s.active_degrees

/-- The initial ghost weights: vertex 0 is active with degree 1. -/
def w0 : Nat → Nat := fun v => if v = 0 then 1 else 0

theorem initState_inv (steps : Nat) (hsteps : 1 ≤ steps) :
    SimInv steps 0 w0 (initState steps) := by
  have hf : (initState steps).fenwick = (Fenwick.of_size steps).set 0 1 := rfl
  have hh : (initState steps).hypergraph = Hypergraph.initial := rfl
  have hdg : (initState steps).active_degrees = 1 := rfl
  have hsq : (initState steps).active_squares = 1 := rfl
  have hth : (initState steps).theta = [ratioQ 1 1] := rfl
  have hlen0 : (Fenwick.of_size steps).items.length = steps := by
    simp [Fenwick.of_size]
  have hget0 : (Fenwick.of_size steps).get 0 = 0 :=
    Fenwick.get_eq (Fenwick.of_size steps) (fun _ => 0) (valid_of_size steps) 0
      (by rw [hlen0]; omega)
  have hvalid : Valid ((Fenwick.of_size steps).set 0 1).items (fun k => (w0 k : Int)) := by
    have h := valid_set (Fenwick.of_size steps) (fun _ => 0) (valid_of_size steps) 0 1
      (by rw [hlen0]; omega)
    refine Valid_congr _ _ _ ?_ h
    intro k
    show (if k = 0 then (1:Int) else 0) = ((if k = 0 then 1 else 0 : Nat) : Int)
    by_cases hk : k = 0
    · rw [if_pos hk, if_pos hk]
      rfl
    · rw [if_neg hk, if_neg hk]
      rfl
  refine ⟨?_, rfl, ?_, ?_, ?_, ?_, ?_, ?_, ?_, ?_, ?_, ?_⟩
  · rw [hf]
    show ((Fenwick.of_size steps).add 0 _).items.length = steps
    rw [add_length, hlen0]
  · rw [hh]
    exact le_refl 1
  · rw [hh]
    show (1:Nat) ≤ 1 + 0
    omega
  · intro v hv
    rw [hh] at hv
    have hv1 : 1 ≤ v := hv
    show (if v = 0 then 1 else 0) = 0
    rw [if_neg (by omega)]
  · intro v hv
    rw [hh] at hv ⊢
    have hv1 : v < 1 := hv
    have hv0 : v = 0 := by omega
    subst hv0
    right
    rfl
  · rw [hf]
    exact hvalid
  · rw [hf, hdg]
    show ((Fenwick.of_size steps).add 0 (1 - (Fenwick.of_size steps).get 0)).total = 1
    rw [add_total, hget0]
    rfl
  · rw [hdg, hh]
    rfl
  · rw [hh]
    rfl
  · rw [hth]
    rfl
  · rw [hth, hsq, hdg]
    rfl

/-! ## The per-edge update loop -/

theorem edgeFold_inv (h1 : Hypergraph) (e : List Nat) :
    ∀ (f : Fenwick) (dg sq : Nat) (w : Nat → Nat),
      Valid f.items (fun k => (w k : Int)) →
      f.total = (dg : Int) →
      (e.foldl (edgeFold h1) (f, dg, sq)).1.items.length = f.items.length ∧
      Valid (e.foldl (edgeFold h1) (f, dg, sq)).1.items (fun k => (bumpN w e k : Int)) ∧
      (e.foldl (edgeFold h1) (f, dg, sq)).1.total =
        ((e.foldl (edgeFold h1) (f, dg, sq)).2.1 : Int) ∧
      (e.foldl (edgeFold h1) (f, dg, sq)).2.1 = dg + e.length := by
  induction e with
  | nil =>
    intro f dg sq w hv htot
    refine ⟨rfl, ?_, htot, by simp⟩
    refine Valid_congr _ _ _ ?_ hv
    intro k
    show (w k : Int) = ((w k + List.count k [] : Nat) : Int)
    simp
  | cons u e ih =>
    intro f dg sq w hv htot
    have hv' : Valid (f.add u 1).items (fun k => ((updN w u (w u + 1)) k : Int)) := by
      refine Valid_congr _ _ _ ?_ (valid_add f (fun k => (w k : Int)) hv u 1)
      intro k
      show (if k = u then (w u : Int) + 1 else (w k : Int)) =
        ((if k = u then w u + 1 else w k : Nat) : Int)
      by_cases hk : k = u
      · rw [if_pos hk, if_pos hk]
        push_cast
        ring
      · rw [if_neg hk, if_neg hk]
    have htot' : (f.add u 1).total = ((dg + 1 : Nat) : Int) := by
      rw [add_total, htot]
      push_cast
      ring
    obtain ⟨g1, g2, g3, g4⟩ := ih (f.add u 1) (dg + 1) (sq + (2 * h1.degree.getD u 0 + 1))
      (updN w u (w u + 1)) hv' htot'
    refine ⟨?_, ?_, ?_, ?_⟩
    · show (e.foldl (edgeFold h1) (f.add u 1, dg + 1, sq + (2 * h1.degree.getD u 0 + 1))).1.items.length = f.items.length
      rw [g1, add_length]
    · show Valid (e.foldl (edgeFold h1) (f.add u 1, dg + 1, sq + (2 * h1.degree.getD u 0 + 1))).1.items _
      refine Valid_congr _ _ _ ?_ g2
      intro k
      rw [bumpN_cons]
    · exact g3
    · show (e.foldl (edgeFold h1) (f.add u 1, dg + 1, sq + (2 * h1.degree.getD u 0 + 1))).2.1 = dg + (u :: e).length
      rw [g4]
      simp only [List.length_cons]
      omega

/-! ## Generic list facts used by the run-level invariant -/

theorem getD_append_lt_any {α : Type} (l l' : List α) (i : Nat) (d : α)
    (h : i < l.length) : (l ++ l').getD i d = l.getD i d := by
  simp [List.getD_eq_getElem?_getD, List.getElem?_append_left h]

theorem getD_append_len_any {α : Type} (l : List α) (x d : α) :
    (l ++ [x]).getD l.length d = x := by
  simp [List.getD_eq_getElem?_getD]

/-- Soundness of a successful sample_draw: the returned index is in range
and carries a strictly positive weight. -/
theorem sample_draw_sound (f : Fenwick) (w : Nat → Int) (hv : Valid f.items w)
    (hw : ∀ k, k < f.items.length → 0 ≤ w k)
    (htot : f.total = SW w f.items.length) (hn : 1 ≤ f.items.length)
    (u : Nat × Nat) (hu : u.1 < u.2) (v : Nat)
    (hdraw : f.sample_draw u = some v) :
    v < f.items.length ∧ 0 < w v := by
  unfold Fenwick.sample_draw at hdraw
  by_cases h1 : f.total < 1
  · rw [if_pos h1] at hdraw
    exact absurd hdraw (by simp)
  · rw [if_neg h1] at hdraw
    obtain ⟨hx1, hx2⟩ := draw_bounds f.total u (by omega) hu
    obtain ⟨ha, hb⟩ := sample_one_pos f w hv hw htot hn
      (1 + ((u.1 * f.total.toNat / u.2 : Nat) : Int)) hx1 hx2
    have he : f.sample_one (1 + ((u.1 * f.total.toNat / u.2 : Nat) : Int)) = v :=
      Option.some.inj hdraw
    rw [he] at ha hb
    exact ⟨ha, hb⟩

/-! ## The three event branches as explicit state transformers -/

/-- The state produced by an arrival event attaching the hyperedge e, where
h1 is the hypergraph already holding any newly created vertex. -/
def arrivalState (s : SimState) (h1 : Hypergraph) (e : List Nat) : SimState :=
  { hypergraph := h1.add_edge e,
    fenwick := (e.foldl (edgeFold h1) (s.fenwick, s.active_degrees, s.active_squares)).1,
    active_squares := (e.foldl (edgeFold h1) (s.fenwick, s.active_degrees, s.active_squares)).2.2,
    active_degrees := (e.foldl (edgeFold h1) (s.fenwick, s.active_degrees, s.active_squares)).2.1,
    theta := s.theta ++
      [ratioQ (e.foldl (edgeFold h1) (s.fenwick, s.active_degrees, s.active_squares)).2.2
        (e.foldl (edgeFold h1) (s.fenwick, s.active_degrees, s.active_squares)).2.1] }

/-- The state produced by deactivating vertex v. -/
def deactState (s : SimState) (v : Nat) : SimState :=
  { hypergraph := s.hypergraph,
    fenwick := s.fenwick.set v 0,
    active_squares := s.active_squares -
      s.hypergraph.degree.getD v 0 * s.hypergraph.degree.getD v 0,
    active_degrees := s.active_degrees - s.hypergraph.degree.getD v 0,
    theta := s.theta ++
      [ratioQ (s.active_squares - s.hypergraph.degree.getD v 0 * s.hypergraph.degree.getD v 0)
        (s.active_degrees - s.hypergraph.degree.getD v 0)] }

/-- Deactivating an active vertex preserves the master invariant with the
ghost weight zeroed at v, on its own the hypergraph untouched. -/
theorem deact_inv (cap t : Nat) (w : Nat → Nat) (s : SimState) (v : Nat)
    (hinv : SimInv cap t w s) (hvV : v < s.hypergraph.vertices)
    (hwv : w v = s.hypergraph.degree.getD v 0) (hpos : 0 < w v)
    (hvcap : s.hypergraph.vertices ≤ cap) :
    SimInv cap (t+1) (updN w v 0) (deactState s v) ∧
    updN w v 0 v = 0 ∧
    (∀ u, u < s.hypergraph.vertices → w u = 0 → updN w v 0 u = 0) ∧
    (deactState s v).hypergraph = s.hypergraph := by
  obtain ⟨h1c, h2c, h3c, h4c, h5c, h6c, h7c, h8c, h9c, h10c, h11c, h12c⟩ := hinv
  have hvlen : v < s.fenwick.items.length := by omega
  have hget : s.fenwick.get v = (w v : Int) :=
    Fenwick.get_eq s.fenwick (fun k => (w k : Int)) h7c v hvlen
  have hle : w v ≤ s.active_degrees := by
    rw [h9c]
    exact sumTo_term_le w v _ hvV
  have hfen : (deactState s v).fenwick = s.fenwick.set v 0 := rfl
  have hH : (deactState s v).hypergraph = s.hypergraph := rfl
  have hdgs : (deactState s v).active_degrees
      = s.active_degrees - s.hypergraph.degree.getD v 0 := rfl
  have hsqs : (deactState s v).active_squares
      = s.active_squares - s.hypergraph.degree.getD v 0 * s.hypergraph.degree.getD v 0 := rfl
  have hth : (deactState s v).theta = s.theta ++
      [ratioQ (s.active_squares - s.hypergraph.degree.getD v 0 * s.hypergraph.degree.getD v 0)
        (s.active_degrees - s.hypergraph.degree.getD v 0)] := rfl
  refine ⟨⟨?_, ?_, ?_, ?_, ?_, ?_, ?_, ?_, ?_, ?_, ?_, ?_⟩, ?_, ?_, hH⟩
  · rw [hfen]
    have : (s.fenwick.set v 0).items.length = s.fenwick.items.length :=
      add_length s.fenwick v (0 - s.fenwick.get v)
    rw [this]
    exact h1c
  · rw [hH]
    exact h2c
  · rw [hH]
    exact h3c
  · rw [hH]
    omega
  · intro u hu
    rw [hH] at hu
    show (if u = v then 0 else w u) = 0
    rw [if_neg (by omega)]
    exact h5c u hu
  · intro u hu
    rw [hH] at hu ⊢
    by_cases huv : u = v
    · subst huv
      left
      show (if u = u then 0 else w u) = 0
      rw [if_pos rfl]
    · show (if u = v then 0 else w u) = 0 ∨ (if u = v then 0 else w u) = _
      rw [if_neg huv]
      exact h6c u hu
  · rw [hfen]
    have h := valid_set s.fenwick (fun k => (w k : Int)) h7c v 0 hvlen
    refine Valid_congr _ _ _ ?_ h
    intro k
    show (if k = v then (0:Int) else (w k : Int)) = ((if k = v then 0 else w k : Nat) : Int)
    by_cases hk : k = v
    · rw [if_pos hk, if_pos hk]
      rfl
    · rw [if_neg hk, if_neg hk]
  · rw [hfen, hdgs, set_total, h8c, hget, ← hwv]
    omega
  · rw [hdgs, hH, ← hwv, sumTo_upd_zero w v _ hvV, ← h9c]
  · rw [hH]
    exact h10c
  · rw [hth, List.length_append, h11c]
    rfl
  · rw [hth, hsqs, hdgs, show t + 1 = s.theta.length from h11c.symm,
      getD_append_len_any]
  · show (if v = v then 0 else w v) = 0
    rw [if_pos rfl]
  · intro u hu hz
    by_cases huv : u = v
    · subst huv
      omega
    · show (if u = v then 0 else w u) = 0
      rw [if_neg huv]
      exact hz

/-- A vertex arrival preserves the master invariant: the new vertex v is
appended, the sampled partners e0 are active existing vertices, and the
hyperedge e0 ++ [v] is attached, bumping the ghost weights accordingly. -/
theorem vertexArrival_inv (cap t : Nat) (w : Nat → Nat) (s : SimState) (e0 : List Nat)
    (hinv : SimInv cap t w s)
    (hm0 : ∀ x ∈ e0, x < s.hypergraph.vertices ∧ 0 < w x) :
    SimInv cap (t+1) (bumpN w (e0 ++ [s.hypergraph.vertices]))
      (arrivalState s (s.hypergraph.add_vertex).1 (e0 ++ [s.hypergraph.vertices])) ∧
    (∀ u, u < s.hypergraph.vertices → w u = 0 →
      bumpN w (e0 ++ [s.hypergraph.vertices]) u = 0 ∧
      (arrivalState s (s.hypergraph.add_vertex).1
        (e0 ++ [s.hypergraph.vertices])).hypergraph.degree.getD u 0
        = s.hypergraph.degree.getD u 0 ∧
      u ∉ e0 ++ [s.hypergraph.vertices]) ∧
    (arrivalState s (s.hypergraph.add_vertex).1
      (e0 ++ [s.hypergraph.vertices])).hypergraph.edges
      = s.hypergraph.edges ++ [e0 ++ [s.hypergraph.vertices]] := by
  obtain ⟨h1c, h2c, h3c, h4c, h5c, h6c, h7c, h8c, h9c, h10c, h11c, h12c⟩ := hinv
  have hme : ∀ x ∈ e0 ++ [s.hypergraph.vertices], x < s.hypergraph.vertices + 1 := by
    intro x hx
    rcases List.mem_append.mp hx with h | h
    · have := (hm0 x h).1
      omega
    · have : x = s.hypergraph.vertices := by simpa using h
      omega
  have hwV : w s.hypergraph.vertices = 0 := h5c _ le_rfl
  have hcount0 : ∀ u, u < s.hypergraph.vertices → w u = 0 →
      u ∉ e0 ++ [s.hypergraph.vertices] ∧ (e0 ++ [s.hypergraph.vertices]).count u = 0 := by
    intro u hu hz
    have hnm : u ∉ e0 ++ [s.hypergraph.vertices] := by
      intro hmem
      rcases List.mem_append.mp hmem with h | h
      · have := (hm0 u h).2
        omega
      · have : u = s.hypergraph.vertices := by simpa using h
        omega
    exact ⟨hnm, List.count_eq_zero_of_not_mem hnm⟩
  obtain ⟨g1, g2, g3, g4⟩ := edgeFold_inv (s.hypergraph.add_vertex).1
    (e0 ++ [s.hypergraph.vertices]) s.fenwick s.active_degrees s.active_squares w h7c h8c
  have hfen : (arrivalState s (s.hypergraph.add_vertex).1
      (e0 ++ [s.hypergraph.vertices])).fenwick
      = ((e0 ++ [s.hypergraph.vertices]).foldl (edgeFold (s.hypergraph.add_vertex).1)
        (s.fenwick, s.active_degrees, s.active_squares)).1 := rfl
  have hdgs : (arrivalState s (s.hypergraph.add_vertex).1
      (e0 ++ [s.hypergraph.vertices])).active_degrees
      = ((e0 ++ [s.hypergraph.vertices]).foldl (edgeFold (s.hypergraph.add_vertex).1)
        (s.fenwick, s.active_degrees, s.active_squares)).2.1 := rfl
  have hsqs : (arrivalState s (s.hypergraph.add_vertex).1
      (e0 ++ [s.hypergraph.vertices])).active_squares
      = ((e0 ++ [s.hypergraph.vertices]).foldl (edgeFold (s.hypergraph.add_vertex).1)
        (s.fenwick, s.active_degrees, s.active_squares)).2.2 := rfl
  have hvert : (arrivalState s (s.hypergraph.add_vertex).1
      (e0 ++ [s.hypergraph.vertices])).hypergraph.vertices
      = s.hypergraph.vertices + 1 := rfl
  have hdeg : (arrivalState s (s.hypergraph.add_vertex).1
      (e0 ++ [s.hypergraph.vertices])).hypergraph.degree
      = bumpDegrees (s.hypergraph.degree ++ [0]) (e0 ++ [s.hypergraph.vertices]) := rfl
  have hedges : (arrivalState s (s.hypergraph.add_vertex).1
      (e0 ++ [s.hypergraph.vertices])).hypergraph.edges
      = s.hypergraph.edges ++ [e0 ++ [s.hypergraph.vertices]] := rfl
  have hth : (arrivalState s (s.hypergraph.add_vertex).1
      (e0 ++ [s.hypergraph.vertices])).theta
      = s.theta ++
        [ratioQ ((e0 ++ [s.hypergraph.vertices]).foldl (edgeFold (s.hypergraph.add_vertex).1)
            (s.fenwick, s.active_degrees, s.active_squares)).2.2
          ((e0 ++ [s.hypergraph.vertices]).foldl (edgeFold (s.hypergraph.add_vertex).1)
            (s.fenwick, s.active_degrees, s.active_squares)).2.1] := rfl
  have hlen1 : (s.hypergraph.degree ++ [0]).length = s.hypergraph.vertices + 1 := by
    rw [List.length_append, h2c]
    rfl
  have hmemlen : ∀ x ∈ e0 ++ [s.hypergraph.vertices],
      x < (s.hypergraph.degree ++ [0]).length := by
    intro x hx
    rw [hlen1]
    exact hme x hx
  have hgd := bumpDegrees_getD (e0 ++ [s.hypergraph.vertices])
    (s.hypergraph.degree ++ [0]) hmemlen
  refine ⟨⟨?_, ?_, ?_, ?_, ?_, ?_, ?_, ?_, ?_, ?_, ?_, ?_⟩, ?_, hedges⟩
  · rw [hfen, g1]
    exact h1c
  · rw [hdeg, hvert, bumpDegrees_length, hlen1]
  · rw [hvert]
    omega
  · rw [hvert]
    omega
  · intro u hu
    rw [hvert] at hu
    refine bumpN_zero w _ u (h5c u (by omega)) ?_
    intro hmem
    have := hme u hmem
    omega
  · intro u hu
    rw [hvert] at hu
    rw [hdeg, hgd u]
    by_cases huV : u = s.hypergraph.vertices
    · right
      have hz : (s.hypergraph.degree ++ [0]).getD u 0 = 0 := by
        have h := getD_append_len_any s.hypergraph.degree 0 0
        rw [h2c] at h
        rw [huV]
        exact h
      rw [hz]
      show w u + (e0 ++ [s.hypergraph.vertices]).count u
        = 0 + (e0 ++ [s.hypergraph.vertices]).count u
      rw [huV, hwV]
    · have huV' : u < s.hypergraph.vertices := by omega
      rcases h6c u huV' with hz | hd
      · left
        exact bumpN_zero w _ u hz (hcount0 u huV' hz).1
      · right
        rw [getD_append_lt_any s.hypergraph.degree [0] u 0 (by omega)]
        show w u + (e0 ++ [s.hypergraph.vertices]).count u
          = s.hypergraph.degree.getD u 0 + (e0 ++ [s.hypergraph.vertices]).count u
        rw [← hd]
  · rw [hfen]
    exact g2
  · rw [hfen, hdgs]
    exact g3
  · rw [hdgs, hvert, g4, sumTo_bumpN w _ _ hme, h9c]
    have hstep : sumTo w (s.hypergraph.vertices + 1)
        = sumTo w s.hypergraph.vertices + w s.hypergraph.vertices := rfl
    rw [hstep, hwV]
    omega
  · rw [hdeg, hedges, bumpDegrees_sum _ _ hmemlen]
    simp only [List.sum_append, List.map_append, List.map_cons, List.map_nil,
      List.sum_cons, List.sum_nil]
    omega
  · rw [hth, List.length_append, h11c]
    rfl
  · rw [hth, hsqs, hdgs, show t + 1 = s.theta.length from h11c.symm,
      getD_append_len_any]
  · intro u hu hz
    obtain ⟨hnm, hc0⟩ := hcount0 u hu hz
    refine ⟨bumpN_zero w _ u hz hnm, ?_, hnm⟩
    rw [hdeg, hgd u, hc0, getD_append_lt_any s.hypergraph.degree [0] u 0 (by omega)]
    omega

/-- An edge arrival preserves the master invariant: all m sampled vertices
are active existing vertices and the hyperedge is attached. -/
theorem edgeArrival_inv (cap t : Nat) (w : Nat → Nat) (s : SimState) (e : List Nat)
    (hinv : SimInv cap t w s)
    (hm : ∀ x ∈ e, x < s.hypergraph.vertices ∧ 0 < w x) :
    SimInv cap (t+1) (bumpN w e) (arrivalState s s.hypergraph e) ∧
    (∀ u, u < s.hypergraph.vertices → w u = 0 →
      bumpN w e u = 0 ∧
      (arrivalState s s.hypergraph e).hypergraph.degree.getD u 0
        = s.hypergraph.degree.getD u 0 ∧
      u ∉ e) ∧
    (arrivalState s s.hypergraph e).hypergraph.edges = s.hypergraph.edges ++ [e] := by
  obtain ⟨h1c, h2c, h3c, h4c, h5c, h6c, h7c, h8c, h9c, h10c, h11c, h12c⟩ := hinv
  have hme : ∀ x ∈ e, x < s.hypergraph.vertices := fun x hx => (hm x hx).1
  have hcount0 : ∀ u, w u = 0 → u ∉ e ∧ e.count u = 0 := by
    intro u hz
    have hnm : u ∉ e := by
      intro hmem
      have := (hm u hmem).2
      omega
    exact ⟨hnm, List.count_eq_zero_of_not_mem hnm⟩
  obtain ⟨g1, g2, g3, g4⟩ := edgeFold_inv s.hypergraph e s.fenwick
    s.active_degrees s.active_squares w h7c h8c
  have hfen : (arrivalState s s.hypergraph e).fenwick
      = (e.foldl (edgeFold s.hypergraph)
        (s.fenwick, s.active_degrees, s.active_squares)).1 := rfl
  have hdgs : (arrivalState s s.hypergraph e).active_degrees
      = (e.foldl (edgeFold s.hypergraph)
        (s.fenwick, s.active_degrees, s.active_squares)).2.1 := rfl
  have hsqs : (arrivalState s s.hypergraph e).active_squares
      = (e.foldl (edgeFold s.hypergraph)
        (s.fenwick, s.active_degrees, s.active_squares)).2.2 := rfl
  have hvert : (arrivalState s s.hypergraph e).hypergraph.vertices
      = s.hypergraph.vertices := rfl
  have hdeg : (arrivalState s s.hypergraph e).hypergraph.degree
      = bumpDegrees s.hypergraph.degree e := rfl
  have hedges : (arrivalState s s.hypergraph e).hypergraph.edges
      = s.hypergraph.edges ++ [e] := rfl
  have hth : (arrivalState s s.hypergraph e).theta
      = s.theta ++
        [ratioQ (e.foldl (edgeFold s.hypergraph)
            (s.fenwick, s.active_degrees, s.active_squares)).2.2
          (e.foldl (edgeFold s.hypergraph)
            (s.fenwick, s.active_degrees, s.active_squares)).2.1] := rfl
  have hmemlen : ∀ x ∈ e, x < s.hypergraph.degree.length := by
    intro x hx
    rw [h2c]
    exact hme x hx
  have hgd := bumpDegrees_getD e s.hypergraph.degree hmemlen
  refine ⟨⟨?_, ?_, ?_, ?_, ?_, ?_, ?_, ?_, ?_, ?_, ?_, ?_⟩, ?_, hedges⟩
  · rw [hfen, g1]
    exact h1c
  · rw [hdeg, hvert, bumpDegrees_length]
    exact h2c
  · rw [hvert]
    exact h3c
  · rw [hvert]
    omega
  · intro u hu
    rw [hvert] at hu
    refine bumpN_zero w e u (h5c u hu) ?_
    intro hmem
    have := hme u hmem
    omega
  · intro u hu
    rw [hvert] at hu
    rw [hdeg, hgd u]
    rcases h6c u hu with hz | hd
    · left
      exact bumpN_zero w e u hz (hcount0 u hz).1
    · right
      show w u + e.count u = s.hypergraph.degree.getD u 0 + e.count u
      rw [← hd]
  · rw [hfen]
    exact g2
  · rw [hfen, hdgs]
    exact g3
  · rw [hdgs, hvert, g4, sumTo_bumpN w e _ hme, h9c]
  · rw [hdeg, hedges, bumpDegrees_sum _ _ hmemlen]
    simp only [List.sum_append, List.map_append, List.map_cons, List.map_nil,
      List.sum_cons, List.sum_nil]
    omega
  · rw [hth, List.length_append, h11c]
    rfl
  · rw [hth, hsqs, hdgs, show t + 1 = s.theta.length from h11c.symm,
      getD_append_len_any]
  · intro u hu hz
    obtain ⟨hnm, hc0⟩ := hcount0 u hz
    refine ⟨bumpN_zero w e u hz hnm, ?_, hnm⟩
    rw [hdeg, hgd u, hc0]
    omega

/-- One loop iteration of Simulation::run preserves the master invariant:
either the exhaustion guard fires, or the step succeeds, the invariant
advances one step, vertices only get added, edges are only appended,
already deactivated vertices stay deactivated with frozen degree and occur
in no new edge, and exactly one theta entry is appended. -/
theorem step_inv (mo : Model) (t' cap t : Nat) (w : Nat → Nat) (r : StepRand)
    (s : SimState) (hinv : SimInv cap t w s) (hcap : t + 1 ≤ cap)
    (hus : ∀ k, (r.us k).1 < (r.us k).2) :
    (s.active_degrees = 0 ∧ step mo t' r s = .error .exhausted) ∨
    ∃ w1 s1, step mo t' r s = .ok s1 ∧ SimInv cap (t+1) w1 s1 ∧
      s.hypergraph.vertices ≤ s1.hypergraph.vertices ∧
      (∃ es, s1.hypergraph.edges = s.hypergraph.edges ++ es ∧
        (∀ u, u < s.hypergraph.vertices → w u = 0 →
          w1 u = 0 ∧ s1.hypergraph.degree.getD u 0 = s.hypergraph.degree.getD u 0 ∧
          ∀ e ∈ es, u ∉ e)) ∧
      (∃ q, s1.theta = s.theta ++ [q]) := by
  have hc := hinv
  obtain ⟨h1c, h2c, h3c, h4c, h5c, h6c, h7c, h8c, h9c, h10c, h11c, h12c⟩ := hc
  by_cases h0 : s.active_degrees = 0
  · left
    refine ⟨h0, ?_⟩
    unfold step
    rw [if_pos h0]
  · right
    have hVcap : s.hypergraph.vertices ≤ cap := by omega
    have hn : 1 ≤ s.fenwick.items.length := by omega
    have hw : ∀ k, k < s.fenwick.items.length → 0 ≤ ((fun k => (w k : Int)) k) :=
      fun k _ => Int.natCast_nonneg _
    have htotSW : s.fenwick.total = SW (fun k => (w k : Int)) s.fenwick.items.length := by
      rw [h8c, h9c, SW_cast,
        sumTo_ext_zero w s.hypergraph.vertices s.fenwick.items.length
          (by omega) h5c]
    have htot1 : 1 ≤ s.fenwick.total := by
      rw [h8c]
      omega
    cases hek : eventKind mo r.p with
    | vertexArrival =>
      obtain ⟨e0, he0, hlen0, hmem0⟩ := sampleManyAcc_pos s.fenwick
        (fun k => (w k : Int)) h7c hw htotSW hn htot1 r.us hus (mo.size t' - 1) 0
      have hm0 : ∀ x ∈ e0, x < s.hypergraph.vertices ∧ 0 < w x := by
        intro x hx
        obtain ⟨hx1, hx2⟩ := hmem0 x hx
        have hwx : 0 < w x := by exact_mod_cast hx2
        refine ⟨?_, hwx⟩
        by_contra hge
        push_neg at hge
        rw [h5c x hge] at hwx
        omega
      have he0' : s.fenwick.sample_many (mo.size t' - 1) r.us = some e0 := he0
      have hstep : step mo t' r s
          = .ok (arrivalState s (s.hypergraph.add_vertex).1
              (e0 ++ [s.hypergraph.vertices])) := by
        unfold step
        rw [if_neg h0, hek, he0']
        rfl
      obtain ⟨hInv1, hPres, hEdges⟩ := vertexArrival_inv cap t w s e0 hinv hm0
      refine ⟨bumpN w (e0 ++ [s.hypergraph.vertices]), _, hstep, hInv1, ?_,
        ⟨[e0 ++ [s.hypergraph.vertices]], hEdges, ?_⟩, ⟨_, rfl⟩⟩
      · show s.hypergraph.vertices ≤ s.hypergraph.vertices + 1
        omega
      · intro u hu hz
        obtain ⟨hb, hd, hnm⟩ := hPres u hu hz
        refine ⟨hb, hd, ?_⟩
        intro e he
        have : e = e0 ++ [s.hypergraph.vertices] := by simpa using he
        rw [this]
        exact hnm
    | edgeArrival =>
      obtain ⟨e, he, hlen, hmem⟩ := sampleManyAcc_pos s.fenwick
        (fun k => (w k : Int)) h7c hw htotSW hn htot1 r.us hus (mo.size t') 0
      have hm : ∀ x ∈ e, x < s.hypergraph.vertices ∧ 0 < w x := by
        intro x hx
        obtain ⟨hx1, hx2⟩ := hmem x hx
        have hwx : 0 < w x := by exact_mod_cast hx2
        refine ⟨?_, hwx⟩
        by_contra hge
        push_neg at hge
        rw [h5c x hge] at hwx
        omega
      have he' : s.fenwick.sample_many (mo.size t') r.us = some e := he
      have hstep : step mo t' r s = .ok (arrivalState s s.hypergraph e) := by
        unfold step
        rw [if_neg h0, hek, he']
        rfl
      obtain ⟨hInv1, hPres, hEdges⟩ := edgeArrival_inv cap t w s e hinv hm
      refine ⟨bumpN w e, _, hstep, hInv1, ?_, ⟨[e], hEdges, ?_⟩, ⟨_, rfl⟩⟩
      · exact le_refl _
      · intro u hu hz
        obtain ⟨hb, hd, hnm⟩ := hPres u hu hz
        refine ⟨hb, hd, ?_⟩
        intro e2 he2
        have : e2 = e := by simpa using he2
        rw [this]
        exact hnm
    | deactivation =>
      obtain ⟨v, hdraw, hvlt, hvpos⟩ := sample_draw_pos s.fenwick
        (fun k => (w k : Int)) h7c hw htotSW hn htot1 (r.us 0) (hus 0)
      have hvpos' : 0 < w v := by exact_mod_cast hvpos
      have hvV : v < s.hypergraph.vertices := by
        by_contra hge
        push_neg at hge
        rw [h5c v hge] at hvpos'
        omega
      have hwv : w v = s.hypergraph.degree.getD v 0 := by
        rcases h6c v hvV with hz | hd
        · omega
        · exact hd
      have hstep : step mo t' r s = .ok (deactState s v) := by
        unfold step
        rw [if_neg h0, hek, hdraw]
        rfl
      obtain ⟨hInv1, hz1, hPres, hH⟩ := deact_inv cap t w s v hinv hvV hwv hvpos' hVcap
      refine ⟨updN w v 0, _, hstep, hInv1, ?_, ⟨[], ?_, ?_⟩, ⟨_, rfl⟩⟩
      · rw [hH]
      · rw [hH]
        simp
      · intro u hu hz
        refine ⟨hPres u hu hz, by rw [hH], ?_⟩
        intro e he
        exact absurd he (List.not_mem_nil e)

/-! ## Composing the simulation loop -/

theorem runAux_split_err (mo : Model) (rand : Nat → StepRand) :
    ∀ a b t s e, runAux mo rand a t s = .error e →
      runAux mo rand (a + b) t s = .error e := by
  intro a
  induction a with
  | zero =>
    intro b t s e h
    exact absurd h (by simp [runAux])
  | succ a ih =>
    intro b t s e h
    have hq : a + 1 + b = (a + b) + 1 := by omega
    rw [hq]
    cases hs : step mo t (rand t) s with
    | error e2 =>
      simp only [runAux, hs] at h ⊢
      exact h
    | ok s1 =>
      simp only [runAux, hs] at h ⊢
      exact ih b (t+1) s1 e h

theorem runAux_split_ok (mo : Model) (rand : Nat → StepRand) :
    ∀ a b t s s1, runAux mo rand a t s = .ok s1 →
      runAux mo rand (a + b) t s = runAux mo rand b (t + a) s1 := by
  intro a
  induction a with
  | zero =>
    intro b t s s1 h
    have hs1 : s1 = s := by
      have h' : (Except.ok s : Except RunError SimState) = .ok s1 := h
      injection h' with h2
      exact h2.symm
    rw [Nat.zero_add, Nat.add_zero, hs1]
  | succ a ih =>
    intro b t s s1 h
    have hq : a + 1 + b = (a + b) + 1 := by omega
    rw [hq]
    cases hs : step mo t (rand t) s with
    | error e2 =>
      simp only [runAux, hs] at h
      exact absurd h (by simp)
    | ok s2 =>
      simp only [runAux, hs] at h ⊢
      rw [ih b (t+1) s2 s1 h, show t + 1 + a = t + (a + 1) from by omega]

/-- Propagation of the master invariant over the remainder of a run: from
any invariant state, b further loop iterations either hit the exhaustion
guard or end in an invariant state; vertices and edges only grow, a vertex
already deactivated keeps weight 0 and a frozen degree entry and joins no
new hyperedge, and the previously recorded theta entries are unchanged. -/
theorem run_propagate (mo : Model) (rand : Nat → StepRand) (cap : Nat)
    (hwf : ∀ t k, ((rand t).us k).1 < ((rand t).us k).2) :
    ∀ b t w s, SimInv cap t w s → t + b ≤ cap →
      runAux mo rand b (t+1) s = .error .exhausted ∨
      (∃ w' s', runAux mo rand b (t+1) s = .ok s' ∧ SimInv cap (t+b) w' s' ∧
        s.hypergraph.vertices ≤ s'.hypergraph.vertices ∧
        (∃ es, s'.hypergraph.edges = s.hypergraph.edges ++ es ∧
          (∀ u, u < s.hypergraph.vertices → w u = 0 →
            w' u = 0 ∧ s'.hypergraph.degree.getD u 0 = s.hypergraph.degree.getD u 0 ∧
            ∀ e ∈ es, u ∉ e)) ∧
        (∀ u, u < s.theta.length → s'.theta.getD u 0 = s.theta.getD u 0) ∧
        s.theta.length ≤ s'.theta.length) := by
  intro b
  induction b with
  | zero =>
    intro t w s hinv hcap
    right
    refine ⟨w, s, rfl, ?_, le_refl _, ⟨[], by simp, ?_⟩, fun u _ => rfl, le_refl _⟩
    · rw [Nat.add_zero]
      exact hinv
    · intro u hu hz
      exact ⟨hz, rfl, fun e he => absurd he (List.not_mem_nil e)⟩
  | succ b ih =>
    intro t w s hinv hcap
    rcases step_inv mo (t+1) cap t w (rand (t+1)) s hinv (by omega) (hwf (t+1)) with
      ⟨h0, hstep⟩ | ⟨w1, s1, hstep, hinv1, hmono, ⟨es1, hes1, hpres1⟩, ⟨q, hq⟩⟩
    · left
      exact runAux_step_err mo rand b (t+1) s .exhausted hstep
    · have hrw : runAux mo rand (b+1) (t+1) s = runAux mo rand b ((t+1)+1) s1 :=
        runAux_step_ok mo rand b (t+1) s s1 hstep
      rcases ih (t+1) w1 s1 hinv1 (by omega) with herr |
        ⟨w', s', hok, hinv', hmono', ⟨es', hes', hpres'⟩, hth', hthlen'⟩
      · left
        rw [hrw]
        exact herr
      · right
        refine ⟨w', s', by rw [hrw]; exact hok, ?_, le_trans hmono hmono',
          ⟨es1 ++ es', ?_, ?_⟩, ?_, ?_⟩
        · rw [show t + (b+1) = (t+1) + b from by omega]
          exact hinv'
        · rw [hes', hes1, List.append_assoc]
        · intro u hu hz
          obtain ⟨hz1, hd1, hne1⟩ := hpres1 u hu hz
          obtain ⟨hz', hd', hne'⟩ := hpres' u (lt_of_lt_of_le hu hmono) hz1
          refine ⟨hz', hd'.trans hd1, ?_⟩
          intro e he
          rcases List.mem_append.mp he with h | h
          · exact hne1 e h
          · exact hne' e h
        · intro u hu
          have hu1 : u < s1.theta.length := by
            rw [hq, List.length_append]
            simp only [List.length_cons, List.length_nil]
            omega
          rw [hth' u hu1, hq, getD_append_lt_any s.theta [q] u 0 hu]
        · have hq1 : s1.theta.length = s.theta.length + 1 := by
            rw [hq, List.length_append]
            rfl
          omega

/-- The master invariant holds at every surviving intermediate state of a
run. -/
theorem run_inv (mo : Model) (steps : Nat) (rand : Nat → StepRand)
    (hwf : ∀ t k, ((rand t).us k).1 < ((rand t).us k).2) (hsteps : 1 ≤ steps)
    (t : Nat) (ht : t ≤ steps) (s : SimState)
    (hs : stateAfter mo steps rand t = .ok s) :
    ∃ w, SimInv steps t w s := by
  rcases run_propagate mo rand steps hwf t 0 w0 (initState steps)
      (initState_inv steps hsteps) (by omega) with herr | ⟨w', s', hok, hinv', _⟩
  · have herr' : stateAfter mo steps rand t = .error .exhausted := herr
    rw [hs] at herr'
    exact absurd herr' (by simp)
  · have hok' : stateAfter mo steps rand t = .ok s' := hok
    rw [hs] at hok'
    have he : s = s' := by
      injection hok'
    rw [he]
    rw [Nat.zero_add] at hinv'
    exact ⟨w', hinv'⟩

/-- A successful Simulation::run is exactly a successful full traversal of
the loop; the returned record copies the final state's fields. -/
theorem run_ok_elim (mo : Model) (steps : Nat) (rand : Nat → StepRand)
    (sim : Simulation) (h : Simulation.run mo steps rand = .ok sim) :
    ∃ s, stateAfter mo steps rand steps = .ok s ∧
      sim.model = mo ∧ sim.hypergraph = s.hypergraph ∧
      sim.steps = steps ∧ sim.theta = s.theta := by
  unfold Simulation.run at h
  cases hres : runAux mo rand steps 1 (initState steps) with
  | error e =>
    rw [hres] at h
    exact absurd h (by simp)
  | ok s =>
    rw [hres] at h
    injection h with h2
    exact ⟨s, hres, by rw [← h2], by rw [← h2], by rw [← h2], by rw [← h2]⟩

/-! ## Claim C4: exhaustion handling -/

/-- C4 amended: the exhaustion check runs before each step, so if
active_degree_total is zero after some step t < steps, the run fails with
the exhaustion error at step t+1 (the original claim fails when the total
first reaches zero at the final step, where no further check occurs). -/
theorem c4_exhaustion_amended (mo : Model) (steps : Nat) (rand : Nat → StepRand)
    (t : Nat) (ht : t < steps) (s : SimState)
    (hs : stateAfter mo steps rand t = .ok s) (h0 : s.active_degrees = 0) :
    Simulation.run mo steps rand = .error .exhausted := by
  have hstep : step mo (t+1) (rand (t+1)) s = .error .exhausted := by
    unfold step
    rw [if_pos h0]
  have h1 : runAux mo rand (steps - t) (t+1) s = .error .exhausted := by
    rw [show steps - t = (steps - t - 1) + 1 from by omega]
    exact runAux_step_err mo rand (steps - t - 1) (t+1) s .exhausted hstep
  have h2 : runAux mo rand steps 1 (initState steps) = .error .exhausted := by
    have h3 := runAux_split_ok mo rand t (steps - t) 1 (initState steps) s hs
    rw [show t + (steps - t) = steps from by omega,
      show 1 + t = t + 1 from by omega] at h3
    rw [h3]
    exact h1
  unfold Simulation.run
  rw [h2]

/-! ## Claim C8: sampling is always on a positive total -/

/-- C8: with a well-formed random stream, a run never fails through the
sampler (the bad-sample branch is unreachable), and whenever the loop body
is entered the index total equals active_degree_total, hence is strictly
positive once the exhaustion guard has passed: every sample_one and
sample_many call sees total > 0. -/
theorem c8_sampling_guard (mo : Model) (steps : Nat) (rand : Nat → StepRand)
    (hwf : ∀ t k, ((rand t).us k).1 < ((rand t).us k).2) (hsteps : 1 ≤ steps) :
    Simulation.run mo steps rand ≠ .error .badSample ∧
    (∀ t s, t ≤ steps → stateAfter mo steps rand t = .ok s →
      s.fenwick.total = (s.active_degrees : Int) ∧
      (s.active_degrees ≠ 0 → 1 ≤ s.fenwick.total)) := by
  constructor
  · intro hbad
    unfold Simulation.run at hbad
    rcases run_propagate mo rand steps hwf steps 0 w0 (initState steps)
        (initState_inv steps hsteps) (by omega) with herr | ⟨w', s', hok, _⟩
    · have herr' : runAux mo rand steps 1 (initState steps) = .error .exhausted := herr
      rw [herr'] at hbad
      injection hbad with h2
      exact RunError.noConfusion h2
    · have hok' : runAux mo rand steps 1 (initState steps) = .ok s' := hok
      rw [hok'] at hbad
      exact absurd hbad (by simp)
  · intro t s ht hs
    obtain ⟨w, hinv⟩ := run_inv mo steps rand hwf hsteps t ht s hs
    obtain ⟨_, _, _, _, _, _, _, h8, _, _, _, _⟩ := hinv
    refine ⟨h8, ?_⟩
    intro hne
    rw [h8]
    omega

/-! ## Claim C10: the handshake identity -/

/-- C10: the handshake identity Σ degree[v] = Σ |e| holds for the initial
hypergraph, after every surviving step of any run with a well-formed
random stream, and for the hypergraph of any completed run. -/
theorem c10_handshake (mo : Model) (steps : Nat) (rand : Nat → StepRand)
    (hwf : ∀ t k, ((rand t).us k).1 < ((rand t).us k).2) (hsteps : 1 ≤ steps) :
    Hypergraph.initial.degree.sum = (Hypergraph.initial.edges.map List.length).sum ∧
    (∀ t s, t ≤ steps → stateAfter mo steps rand t = .ok s →
      s.hypergraph.degree.sum = (s.hypergraph.edges.map List.length).sum) ∧
    (∀ sim, Simulation.run mo steps rand = .ok sim →
      sim.hypergraph.degree.sum = (sim.hypergraph.edges.map List.length).sum) := by
  refine ⟨rfl, ?_, ?_⟩
  · intro t s ht hs
    obtain ⟨w, hinv⟩ := run_inv mo steps rand hwf hsteps t ht s hs
    obtain ⟨_, _, _, _, _, _, _, _, _, h10, _, _⟩ := hinv
    exact h10
  · intro sim hrun
    obtain ⟨s, hs, _, hH, _, _⟩ := run_ok_elim mo steps rand sim hrun
    obtain ⟨w, hinv⟩ := run_inv mo steps rand hwf hsteps steps (le_refl _) s hs
    obtain ⟨_, _, _, _, _, _, _, _, _, h10, _, _⟩ := hinv
    rw [hH]
    exact h10

/-! ## Claim C5: the contents of theta -/

/-- C5 amended: in a successful run, theta has one entry per step plus the
initial one, and the entry recorded at index t is
active_degree_square / active_degree_total of the state JUST AFTER applying
step t's event (for t = 0, of the initial state) — not of the state
inherited from the previous step as the original claim says. -/
theorem c5_theta_after_event (mo : Model) (steps : Nat) (rand : Nat → StepRand)
    (hwf : ∀ t k, ((rand t).us k).1 < ((rand t).us k).2) (hsteps : 1 ≤ steps)
    (t : Nat) (ht : t ≤ steps) (sim : Simulation)
    (hrun : Simulation.run mo steps rand = .ok sim)
    (s : SimState) (hs : stateAfter mo steps rand t = .ok s) :
    sim.theta.getD t 0 = ratioQ s.active_squares s.active_degrees ∧
    sim.theta.length = steps + 1 := by
  obtain ⟨sf, hsf, _, _, _, hteq⟩ := run_ok_elim mo steps rand sim hrun
  obtain ⟨w, hinv⟩ := run_inv mo steps rand hwf hsteps t ht s hs
  have hc := hinv
  obtain ⟨_, _, _, _, _, _, _, _, _, _, h11, h12⟩ := hc
  have hsplit : runAux mo rand steps 1 (initState steps)
      = runAux mo rand (steps - t) (t+1) s := by
    have h0 := runAux_split_ok mo rand t (steps - t) 1 (initState steps) s hs
    rw [show t + (steps - t) = steps from by omega,
      show 1 + t = t + 1 from by omega] at h0
    exact h0
  rcases run_propagate mo rand steps hwf (steps - t) t w s hinv (by omega) with
    herr | ⟨w2, s2, hok2, hinv2, _, _, hth2, _⟩
  · have hx : stateAfter mo steps rand steps = .error .exhausted := by
      show runAux mo rand steps 1 (initState steps) = _
      rw [hsplit]
      exact herr
    rw [hsf] at hx
    exact absurd hx (by simp)
  · have hx : stateAfter mo steps rand steps = .ok s2 := by
      show runAux mo rand steps 1 (initState steps) = _
      rw [hsplit]
      exact hok2
    rw [hsf] at hx
    have he : sf = s2 := by
      injection hx
    constructor
    · rw [hteq, he, hth2 t (by rw [h11]; omega), h12]
    · rw [hteq, he]
      obtain ⟨_, _, _, _, _, _, _, _, _, _, h11b, _⟩ := hinv2
      rw [h11b]
      omega

/-! ## Claim C9: deactivation is permanent -/

/-- C9: when step t+1 deactivates the sampled vertex v, that vertex was
active (its index weight equalled its positive stored degree), the step
sets its index weight to 0 and changes no degree entry, and in every later
surviving state its index weight reads 0, its stored degree entry is
unchanged, it occurs in no hyperedge added after the deactivation, and no
later weighted draw can return it. -/
theorem c9_deactivation_permanent (mo : Model) (steps : Nat) (rand : Nat → StepRand)
    (hwf : ∀ t k, ((rand t).us k).1 < ((rand t).us k).2)
    (t : Nat) (ht : t < steps) (s s1 : SimState) (v : Nat)
    (hs : stateAfter mo steps rand t = .ok s)
    (hs1 : stateAfter mo steps rand (t+1) = .ok s1)
    (hkind : eventKind mo (rand (t+1)).p = .deactivation)
    (hdraw : s.fenwick.sample_draw ((rand (t+1)).us 0) = some v) :
    s1.fenwick = s.fenwick.set v 0 ∧
    s1.hypergraph = s.hypergraph ∧
    s.fenwick.get v = (s.hypergraph.degree.getD v 0 : Int) ∧
    0 < s.hypergraph.degree.getD v 0 ∧
    (∀ t2 s2, t + 1 ≤ t2 → t2 ≤ steps → stateAfter mo steps rand t2 = .ok s2 →
      s2.fenwick.get v = 0 ∧
      s2.hypergraph.degree.getD v 0 = s.hypergraph.degree.getD v 0 ∧
      (∀ e ∈ s2.hypergraph.edges.drop s.hypergraph.edges.length, v ∉ e) ∧
      (t2 < steps → ∀ u : Nat × Nat, u.1 < u.2 →
        s2.fenwick.sample_draw u ≠ some v)) := by
  have hsteps : 1 ≤ steps := by omega
  obtain ⟨w, hinv⟩ := run_inv mo steps rand hwf hsteps t (by omega) s hs
  have hc := hinv
  obtain ⟨h1c, h2c, h3c, h4c, h5c, h6c, h7c, h8c, h9c, h10c, h11c, h12c⟩ := hc
  have hstep_eq : step mo (t+1) (rand (t+1)) s = .ok s1 := by
    have h0 := runAux_split_ok mo rand t 1 1 (initState steps) s hs
    rw [show (1:Nat) + t = t + 1 from by omega] at h0
    have h1 : stateAfter mo steps rand (t+1) = runAux mo rand 1 (t+1) s := h0
    rw [hs1] at h1
    cases hst : step mo (t+1) (rand (t+1)) s with
    | error e =>
      rw [runAux_step_err mo rand 0 (t+1) s e hst] at h1
      exact absurd h1.symm (by simp)
    | ok x =>
      rw [runAux_step_ok mo rand 0 (t+1) s x hst, runAux_zero] at h1
      have hx : s1 = x := by
        injection h1
      rw [hx]
  have h0dg : s.active_degrees ≠ 0 := by
    intro hz
    have hguard : step mo (t+1) (rand (t+1)) s = .error .exhausted := by
      unfold step
      rw [if_pos hz]
    rw [hguard] at hstep_eq
    exact absurd hstep_eq (by simp)
  have hVcap : s.hypergraph.vertices ≤ steps := by omega
  have hn : 1 ≤ s.fenwick.items.length := by omega
  have hw2 : ∀ k, k < s.fenwick.items.length → 0 ≤ ((fun k => (w k : Int)) k) :=
    fun k _ => Int.natCast_nonneg _
  have htotSW : s.fenwick.total = SW (fun k => (w k : Int)) s.fenwick.items.length := by
    rw [h8c, h9c, SW_cast,
      sumTo_ext_zero w s.hypergraph.vertices s.fenwick.items.length (by omega) h5c]
  obtain ⟨hvlt, hvpos⟩ := sample_draw_sound s.fenwick (fun k => (w k : Int)) h7c hw2
    htotSW hn ((rand (t+1)).us 0) (hwf (t+1) 0) v hdraw
  have hvpos' : 0 < w v := by exact_mod_cast hvpos
  have hvV : v < s.hypergraph.vertices := by
    by_contra hge
    push_neg at hge
    rw [h5c v hge] at hvpos'
    omega
  have hwv : w v = s.hypergraph.degree.getD v 0 := by
    rcases h6c v hvV with hz | hd
    · omega
    · exact hd
  have hstep2 : step mo (t+1) (rand (t+1)) s = .ok (deactState s v) := by
    unfold step
    rw [if_neg h0dg, hkind, hdraw]
    rfl
  have hseq : s1 = deactState s v := by
    rw [hstep2] at hstep_eq
    have hx := hstep_eq
    injection hx with h2
    exact h2.symm
  have hgetv : s.fenwick.get v = (w v : Int) :=
    Fenwick.get_eq s.fenwick (fun k => (w k : Int)) h7c v hvlt
  obtain ⟨hInv1, hz1, hPres, hH⟩ := deact_inv steps t w s v hinv hvV hwv hvpos' hVcap
  refine ⟨by rw [hseq]; rfl, by rw [hseq]; exact hH, by rw [hgetv, hwv], ?_, ?_⟩
  · rw [← hwv]
    exact hvpos'
  · intro t2 s2 ht2a ht2b hs2
    have hsplit : stateAfter mo steps rand t2
        = runAux mo rand (t2 - (t+1)) ((t+1)+1) (deactState s v) := by
      have h0 := runAux_split_ok mo rand (t+1) (t2 - (t+1)) 1 (initState steps) s1 hs1
      rw [show (t+1) + (t2 - (t+1)) = t2 from by omega,
        show (1:Nat) + (t+1) = (t+1)+1 from by omega] at h0
      rw [hseq] at h0
      exact h0
    rcases run_propagate mo rand steps hwf (t2 - (t+1)) (t+1) (updN w v 0)
        (deactState s v) hInv1 (by omega) with herr |
      ⟨w2, s2', hok2, hinv2, _, ⟨es, hes, hpres⟩, _, _⟩
    · rw [hsplit, herr] at hs2
      exact absurd hs2 (by simp)
    · rw [hsplit, hok2] at hs2
      have he2 : s2' = s2 := by
        injection hs2
      subst he2
      obtain ⟨hw2v, hd2v, hne2v⟩ := hpres v hvV hz1
      obtain ⟨i1, i2, i3, i4, i5, i6, i7, i8, i9, i10, i11, i12⟩ := hinv2
      have hvlen2 : v < s2'.fenwick.items.length := by
        rw [i1]
        omega
      have hget2 : s2'.fenwick.get v = (w2 v : Int) :=
        Fenwick.get_eq s2'.fenwick (fun k => (w2 k : Int)) i7 v hvlen2
      refine ⟨?_, hd2v, ?_, ?_⟩
      · rw [hget2, hw2v]
        rfl
      · have hes' : s2'.hypergraph.edges = s.hypergraph.edges ++ es := hes
        rw [hes', List.drop_left]
        exact hne2v
      · intro hlt2 u hu hdraw2
        have hn2 : 1 ≤ s2'.fenwick.items.length := by
          rw [i1]
          omega
        have hw22 : ∀ k, k < s2'.fenwick.items.length → 0 ≤ ((fun k => (w2 k : Int)) k) :=
          fun k _ => Int.natCast_nonneg _
        have htotSW2 : s2'.fenwick.total
            = SW (fun k => (w2 k : Int)) s2'.fenwick.items.length := by
          rw [i8, i9, SW_cast,
            sumTo_ext_zero w2 s2'.hypergraph.vertices s2'.fenwick.items.length
              (by rw [i1]; omega) i5]
        obtain ⟨_, hpos2⟩ := sample_draw_sound s2'.fenwick (fun k => (w2 k : Int)) i7
          hw22 htotSW2 hn2 u hu v hdraw2
        have hpos2' : 0 < w2 v := by exact_mod_cast hpos2
        omega

/-! ## Concrete runs used to witness the run-level claims -/

/-- A valid model (pv = 2/5 > pd = 3/10, pv+pe+pd = 1, m = 1) under which
p = 9/10 selects a deactivation. -/
def mo4 : Model := { pv := 2/5, pe := 3/10, pd := 3/10, m := 1 }

/-- A stream that deactivates at every step: p = 9/10, gen_range oracle 0. -/
def rand4 : Nat → StepRand := fun _ => { p := 9/10, us := fun _ => (0, 1) }

/-- The state after the single step of the one-step mo4 run: vertex 0 has
been deactivated, active_degree_total is 0, yet the loop has ended. -/
def s4end : SimState :=
  { hypergraph := Hypergraph.initial, fenwick := { items := [0], total := 0 },
    active_squares := 0, active_degrees := 0,
    theta := [ratioQ 1 1, ratioQ 0 0] }

/-- The state after step 1 of the two-step mo4 run (capacity 2). -/
def s4mid : SimState :=
  { hypergraph := Hypergraph.initial, fenwick := { items := [0, 0], total := 0 },
    active_squares := 0, active_degrees := 0,
    theta := [ratioQ 1 1, ratioQ 0 0] }

/-- A valid model (pv = 3/5 > pd = 1/5, pv+pe+pd = 1, m = 2). -/
def mo5 : Model := { pv := 3/5, pe := 1/5, pd := 1/5, m := 2 }

/-- A stream whose first step draws p = 1/2 (vertex arrival under mo5) and
whose later steps draw p = 9/10 (deactivation); all gen_range oracles 0. -/
def rand5 : Nat → StepRand := fun t =>
  if t = 1 then { p := 1/2, us := fun _ => (0, 1) }
  else { p := 9/10, us := fun _ => (0, 1) }

/-- The state after step 1 of the one-step mo5 run (capacity 1): vertex 1
was created and edge [0,1] attached; the index add at position 1 was out of
range. -/
def s5end : SimState :=
  { hypergraph := { vertices := 2, edges := [[0], [0, 1]], degree := [2, 1] },
    fenwick := { items := [2], total := 3 },
    active_squares := 5, active_degrees := 3,
    theta := [ratioQ 1 1, ratioQ 5 3] }

/-- The Simulation record returned by the one-step mo5 run. -/
def sim5 : Simulation :=
  { model := mo5,
    hypergraph := { vertices := 2, edges := [[0], [0, 1]], degree := [2, 1] },
    steps := 1, theta := [ratioQ 1 1, ratioQ 5 3] }

/-- The state after step 1 of the two-step mo5 run (capacity 2). -/
def s5a : SimState :=
  { hypergraph := { vertices := 2, edges := [[0], [0, 1]], degree := [2, 1] },
    fenwick := { items := [2, 3], total := 3 },
    active_squares := 5, active_degrees := 3,
    theta := [ratioQ 1 1, ratioQ 5 3] }

/-- The state after step 2 (a deactivation of vertex 0) of the two-step
mo5 run. -/
def s5b : SimState :=
  { hypergraph := { vertices := 2, edges := [[0], [0, 1]], degree := [2, 1] },
    fenwick := { items := [0, 1], total := 1 },
    active_squares := 1, active_degrees := 1,
    theta := [ratioQ 1 1, ratioQ 5 3, ratioQ 1 1] }

/-- A valid model (pv = 2/5 > pd = 3/10, pv+pe+pd = 1, m = 2). -/
def mo9 : Model := { pv := 2/5, pe := 3/10, pd := 3/10, m := 2 }

/-- A stream whose step 2 draws p = 9/10 (deactivation) with gen_range
oracle 2/3 (selecting vertex 1), and whose other steps draw p = 1/5
(vertex arrival) with oracle 0. -/
def rand9 : Nat → StepRand := fun t =>
  if t = 2 then { p := 9/10, us := fun _ => (2, 3) }
  else { p := 1/5, us := fun _ => (0, 1) }

/-- The state after step 1 of the three-step mo9 run (capacity 3). -/
def sW1 : SimState :=
  { hypergraph := { vertices := 2, edges := [[0], [0, 1]], degree := [2, 1] },
    fenwick := { items := [2, 3, 0], total := 3 },
    active_squares := 5, active_degrees := 3,
    theta := [ratioQ 1 1, ratioQ 5 3] }

/-- The state after step 2 of the three-step mo9 run: vertex 1 has been
deactivated. -/
def sW2 : SimState :=
  { hypergraph := { vertices := 2, edges := [[0], [0, 1]], degree := [2, 1] },
    fenwick := { items := [2, 2, 0], total := 2 },
    active_squares := 4, active_degrees := 2,
    theta := [ratioQ 1 1, ratioQ 5 3, ratioQ 4 2] }

/-- The state after step 3 of the three-step mo9 run: vertex 2 arrived with
edge [0,2]; the deactivated vertex 1 is untouched. -/
def sW3 : SimState :=
  { hypergraph := { vertices := 3, edges := [[0], [0, 1], [0, 2]], degree := [3, 1, 1] },
    fenwick := { items := [3, 3, 1], total := 4 },
    active_squares := 10, active_degrees := 4,
    theta := [ratioQ 1 1, ratioQ 5 3, ratioQ 4 2, ratioQ 10 4] }

theorem hwf4 : ∀ t k, ((rand4 t).us k).1 < ((rand4 t).us k).2 := by
  intro t k
  show (0 : Nat) < 1
  omega

theorem hwf5 : ∀ t k, ((rand5 t).us k).1 < ((rand5 t).us k).2 := by
  intro t k
  by_cases h : t = 1 <;> simp [rand5, h]

theorem hwf9 : ∀ t k, ((rand9 t).us k).1 < ((rand9 t).us k).2 := by
  intro t k
  by_cases h : t = 2 <;> simp [rand9, h]

theorem ek4 : eventKind mo4 (rand4 1).p = .deactivation := by
  show eventKind mo4 (9/10 : ℚ) = .deactivation
  unfold eventKind
  rw [if_neg (by norm_num [mo4]), if_neg (by norm_num [mo4])]

theorem ek5a : eventKind mo5 (rand5 1).p = .vertexArrival := by
  show eventKind mo5 (1/2 : ℚ) = .vertexArrival
  unfold eventKind
  rw [if_pos (by norm_num [mo5])]

theorem ek5b : eventKind mo5 (rand5 2).p = .deactivation := by
  show eventKind mo5 (9/10 : ℚ) = .deactivation
  unfold eventKind
  rw [if_neg (by norm_num [mo5]), if_neg (by norm_num [mo5])]

theorem ek9a : eventKind mo9 (rand9 1).p = .vertexArrival := by
  show eventKind mo9 (1/5 : ℚ) = .vertexArrival
  unfold eventKind
  rw [if_pos (by norm_num [mo9])]

theorem ek9b : eventKind mo9 (rand9 2).p = .deactivation := by
  show eventKind mo9 (9/10 : ℚ) = .deactivation
  unfold eventKind
  rw [if_neg (by norm_num [mo9]), if_neg (by norm_num [mo9])]

theorem ek9c : eventKind mo9 (rand9 3).p = .vertexArrival := by
  show eventKind mo9 (1/5 : ℚ) = .vertexArrival
  unfold eventKind
  rw [if_pos (by norm_num [mo9])]

theorem eval4_step1 : step mo4 1 (rand4 1) (initState 1) = .ok s4end := by
  unfold step
  rw [if_neg (by decide), ek4]
  rfl

theorem eval4_state1 : stateAfter mo4 1 rand4 1 = .ok s4end := by
  show runAux mo4 rand4 (0+1) 1 (initState 1) = _
  rw [runAux_step_ok mo4 rand4 0 1 (initState 1) s4end eval4_step1]
  rfl

theorem eval4_run1 : Simulation.run mo4 1 rand4
    = .ok { model := mo4, hypergraph := Hypergraph.initial, steps := 1,
            theta := [ratioQ 1 1, ratioQ 0 0] } := by
  unfold Simulation.run
  rw [show runAux mo4 rand4 1 1 (initState 1) = .ok s4end from eval4_state1]
  rfl

theorem eval4_step1_cap2 : step mo4 1 (rand4 1) (initState 2) = .ok s4mid := by
  unfold step
  rw [if_neg (by decide), ek4]
  rfl

theorem eval4_state1_cap2 : stateAfter mo4 2 rand4 1 = .ok s4mid := by
  show runAux mo4 rand4 (0+1) 1 (initState 2) = _
  rw [runAux_step_ok mo4 rand4 0 1 (initState 2) s4mid eval4_step1_cap2]
  rfl

theorem eval5_step1 : step mo5 1 (rand5 1) (initState 1) = .ok s5end := by
  unfold step
  rw [if_neg (by decide), ek5a]
  rfl

theorem eval5_state1 : stateAfter mo5 1 rand5 1 = .ok s5end := by
  show runAux mo5 rand5 (0+1) 1 (initState 1) = _
  rw [runAux_step_ok mo5 rand5 0 1 (initState 1) s5end eval5_step1]
  rfl

theorem eval5_run1 : Simulation.run mo5 1 rand5 = .ok sim5 := by
  unfold Simulation.run
  rw [show runAux mo5 rand5 1 1 (initState 1) = .ok s5end from eval5_state1]
  rfl

theorem eval5_step1_cap2 : step mo5 1 (rand5 1) (initState 2) = .ok s5a := by
  unfold step
  rw [if_neg (by decide), ek5a]
  rfl

theorem eval5_step2_cap2 : step mo5 2 (rand5 2) s5a = .ok s5b := by
  unfold step
  rw [if_neg (by decide), ek5b]
  rfl

theorem eval5_state2_cap2 : stateAfter mo5 2 rand5 2 = .ok s5b := by
  show runAux mo5 rand5 (1+1) 1 (initState 2) = _
  rw [runAux_step_ok mo5 rand5 1 1 (initState 2) s5a eval5_step1_cap2]
  have h2 : runAux mo5 rand5 1 2 s5a = runAux mo5 rand5 0 3 s5b :=
    runAux_step_ok mo5 rand5 0 2 s5a s5b eval5_step2_cap2
  rw [h2]
  rfl

theorem eval5_run2 : Simulation.run mo5 2 rand5
    = .ok { model := mo5,
            hypergraph := { vertices := 2, edges := [[0], [0, 1]], degree := [2, 1] },
            steps := 2, theta := [ratioQ 1 1, ratioQ 5 3, ratioQ 1 1] } := by
  unfold Simulation.run
  rw [show runAux mo5 rand5 2 1 (initState 2) = .ok s5b from eval5_state2_cap2]
  rfl

theorem eval9_step1 : step mo9 1 (rand9 1) (initState 3) = .ok sW1 := by
  unfold step
  rw [if_neg (by decide), ek9a]
  rfl

theorem eval9_step2 : step mo9 2 (rand9 2) sW1 = .ok sW2 := by
  unfold step
  rw [if_neg (by decide), ek9b]
  rfl

theorem eval9_step3 : step mo9 3 (rand9 3) sW2 = .ok sW3 := by
  unfold step
  rw [if_neg (by decide), ek9c]
  rfl

theorem eval9_state1 : stateAfter mo9 3 rand9 1 = .ok sW1 := by
  show runAux mo9 rand9 (0+1) 1 (initState 3) = _
  rw [runAux_step_ok mo9 rand9 0 1 (initState 3) sW1 eval9_step1]
  rfl

theorem eval9_state2 : stateAfter mo9 3 rand9 2 = .ok sW2 := by
  show runAux mo9 rand9 (1+1) 1 (initState 3) = _
  rw [runAux_step_ok mo9 rand9 1 1 (initState 3) sW1 eval9_step1]
  have h2 : runAux mo9 rand9 1 2 sW1 = runAux mo9 rand9 0 3 sW2 :=
    runAux_step_ok mo9 rand9 0 2 sW1 sW2 eval9_step2
  rw [h2]
  rfl

theorem eval9_state3 : stateAfter mo9 3 rand9 3 = .ok sW3 := by
  show runAux mo9 rand9 (2+1) 1 (initState 3) = _
  rw [runAux_step_ok mo9 rand9 2 1 (initState 3) sW1 eval9_step1]
  have h2 : runAux mo9 rand9 2 2 sW1 = runAux mo9 rand9 1 3 sW2 :=
    runAux_step_ok mo9 rand9 1 2 sW1 sW2 eval9_step2
  rw [h2]
  have h3 : runAux mo9 rand9 1 3 sW2 = runAux mo9 rand9 0 4 sW3 :=
    runAux_step_ok mo9 rand9 0 3 sW2 sW3 eval9_step3
  rw [h3]
  rfl

/-- C4 counterexample: under mo4 with steps = 1, the single step
deactivates the only vertex, so active_degree_total reaches zero during
the run, yet the run returns a successful Simulation (recording the 0/0
theta entry): the claim that no run whose total ever reaches zero returns
a successful result is false, because the exhaustion check only runs
before a step and no check follows the final step. -/
theorem c4_exhaustion_counterexample :
    (stateAfter mo4 1 rand4 1).map (fun s => s.active_degrees) = .ok 0 ∧
    (Simulation.run mo4 1 rand4).map Simulation.theta = .ok [ratioQ 1 1, ratioQ 0 0] := by
  constructor
  · rw [eval4_state1]
    rfl
  · rw [eval4_run1]
    rfl

/-- C4 amended witness: in the two-step mo4 run, active_degree_total is 0
after step 1 < 2, and the run indeed fails with the exhaustion error. -/
theorem c4_exhaustion_amended_witness :
    (1 < 2 ∧ stateAfter mo4 2 rand4 1 = .ok s4mid ∧ s4mid.active_degrees = 0) ∧
    Simulation.run mo4 2 rand4 = .error .exhausted := by
  refine ⟨⟨by omega, eval4_state1_cap2, rfl⟩, ?_⟩
  exact c4_exhaustion_amended mo4 2 rand4 1 (by omega) s4mid eval4_state1_cap2 rfl

/-- C5 counterexample: in the successful two-step mo5 run, theta[1] is 5/3,
the ratio of the state after step 1's event, while the state before step 1
(the initial state) has ratio 1/1, and 5/3 is not 1/1: theta[t] does not
reflect the state inherited from the previous step. -/
theorem c5_theta_counterexample :
    (Simulation.run mo5 2 rand5).map Simulation.theta
      = .ok [ratioQ 1 1, ratioQ 5 3, ratioQ 1 1] ∧
    (stateAfter mo5 2 rand5 0).map (fun s => ratioQ s.active_squares s.active_degrees)
      = .ok (ratioQ 1 1) ∧
    ratioQ 5 3 ≠ ratioQ 1 1 := by
  refine ⟨?_, ?_, ?_⟩
  · rw [eval5_run2]
    rfl
  · rfl
  · unfold ratioQ
    norm_num

/-- C5 amended witness: the one-step mo5 run succeeds and its recorded
theta[1] equals the ratio of the state after step 1's event. -/
theorem c5_theta_after_event_witness :
    (Simulation.run mo5 1 rand5 = .ok sim5 ∧ stateAfter mo5 1 rand5 1 = .ok s5end) ∧
    sim5.theta.getD 1 0 = ratioQ s5end.active_squares s5end.active_degrees := by
  refine ⟨⟨eval5_run1, eval5_state1⟩, ?_⟩
  exact (c5_theta_after_event mo5 1 rand5 hwf5 (le_refl 1) 1 (le_refl 1) sim5
    eval5_run1 s5end eval5_state1).1

/-- C8 witness: the one-step mo5 run does not fail through the sampler, and
at its surviving state the index total equals active_degree_total. -/
theorem c8_sampling_guard_witness :
    Simulation.run mo5 1 rand5 ≠ .error .badSample ∧
    stateAfter mo5 1 rand5 1 = .ok s5end ∧
    s5end.fenwick.total = (s5end.active_degrees : Int) := by
  have h := c8_sampling_guard mo5 1 rand5 hwf5 (le_refl 1)
  exact ⟨h.1, eval5_state1, (h.2 1 s5end (le_refl 1) eval5_state1).1⟩

/-- C10 witness: the handshake identity holds for the initial hypergraph,
for the state after step 1 of the mo5 run, and for the returned run. -/
theorem c10_handshake_witness :
    (stateAfter mo5 1 rand5 1 = .ok s5end ∧
      s5end.hypergraph.degree.sum = (s5end.hypergraph.edges.map List.length).sum) ∧
    (Simulation.run mo5 1 rand5 = .ok sim5 ∧
      sim5.hypergraph.degree.sum = (sim5.hypergraph.edges.map List.length).sum) := by
  have h := c10_handshake mo5 1 rand5 hwf5 (le_refl 1)
  exact ⟨⟨eval5_state1, h.2.1 1 s5end (le_refl 1) eval5_state1⟩,
    ⟨eval5_run1, h.2.2 sim5 eval5_run1⟩⟩

/-- C9 witness: in the three-step mo9 run, step 2 deactivates vertex 1; at
the state after step 3 the index weight of vertex 1 reads 0 and its stored
degree entry is unchanged (and the edge [0,2] added later avoids it). -/
theorem c9_deactivation_permanent_witness :
    (stateAfter mo9 3 rand9 1 = .ok sW1 ∧ stateAfter mo9 3 rand9 2 = .ok sW2 ∧
      stateAfter mo9 3 rand9 3 = .ok sW3 ∧
      eventKind mo9 (rand9 2).p = .deactivation ∧
      sW1.fenwick.sample_draw ((rand9 2).us 0) = some 1) ∧
    (sW3.fenwick.get 1 = 0 ∧
      sW3.hypergraph.degree.getD 1 0 = sW1.hypergraph.degree.getD 1 0) := by
  have hdraw : sW1.fenwick.sample_draw ((rand9 2).us 0) = some 1 := by rfl
  have main := c9_deactivation_permanent mo9 3 rand9 hwf9 1 (by omega) sW1 sW2 1
    eval9_state1 eval9_state2 ek9b hdraw
  have later := main.2.2.2.2 3 sW3 (by omega) (by omega) eval9_state3
  exact ⟨⟨eval9_state1, eval9_state2, eval9_state3, ek9b, hdraw⟩, later.1, later.2.1⟩
